import Mathlib

/-!
Verification of the conflict-resolution layer of the rethinkdb raw I/O
scheduler, as exercised by `src/unittest/disk_conflict_resolution.cc`.

The engine itself (`conflict_resolving_diskmgr_t` in
`arch/io/disk/conflict_resolving.hpp`) is not part of the visible sources;
only its unit test is.  Following the specification, the engine is modelled
here from the spec's own description (definitions marked `Modelled from the
spec:`), while the test driver's simulated backing store (`test_driver_t`
in the visible test file) is embedded from the source.
-/

namespace DiskConflict

/-- Modelled from the spec: the `Request` data type of §3 (the engine's
`action_t` lives in the missing `arch/io/disk/conflict_resolving.hpp`).
`is_read` is the direction, `offset : i64` and `count : usize` give the
half-open byte range `[offset, offset + count)`, and `data` is the caller's
buffer contents (used by the simulated backing store only; the conflict
predicate never reads it). -/
structure Request where
  is_read : Bool
  offset : Int
  count : Nat
  data : List Nat
deriving DecidableEq, Repr

/-- Modelled from the spec: `ranges_overlap` of §4.1 (the real predicate is
in the missing `conflict_resolving.hpp`): true iff
`A.offset < B.offset + B.count && B.offset < A.offset + A.count`. -/
def ranges_overlap (a b : Request) : Bool :=
  decide (a.offset < b.offset + (b.count : Int)) &&
    decide (b.offset < a.offset + (a.count : Int))

/-- Modelled from the spec: the Conflict Predicate of §4.1 (the real
predicate is in the missing `conflict_resolving.hpp`):
`conflict(A, B) = !(A.is_read && B.is_read) && ranges_overlap(A, B)`. -/
def conflict (a b : Request) : Bool :=
  !(a.is_read && b.is_read) && ranges_overlap a b

theorem ranges_overlap_comm (a b : Request) : ranges_overlap a b = ranges_overlap b a := by
  simp only [ranges_overlap]
  by_cases h1 : a.offset < b.offset + (b.count : Int) <;>
    by_cases h2 : b.offset < a.offset + (a.count : Int) <;> simp [h1, h2]

theorem conflict_comm (a b : Request) : conflict a b = conflict b a := by
  simp only [conflict, ranges_overlap_comm a b, Bool.and_comm]

theorem ranges_overlap_congr (a b a' b' : Request)
    (ha1 : a.offset = a'.offset) (ha2 : a.count = a'.count)
    (hb1 : b.offset = b'.offset) (hb2 : b.count = b'.count) :
    ranges_overlap a b = ranges_overlap a' b' := by
  simp only [ranges_overlap, ha1, ha2, hb1, hb2]

/-- An entry of the Outstanding-Request Ledger (spec §3): one outstanding
request with its stable identity (`id`, the submission-order position) and
its `dispatched`/`held` status. -/
structure Entry where
  id : Nat
  req : Request
  dispatched : Bool
deriving DecidableEq, Repr

/-- Modelled from the spec: whether a request conflicts with some entry of a
list of ledger entries (the "conflicts with any request currently in
`dispatched ∪ held`" check of §4.2, performed by the missing engine). -/
def conflictsWithAny (l : List Entry) (r : Request) : Bool :=
  l.any (fun e => conflict e.req r)

/-- Modelled from the spec: the Outstanding-Request Ledger of §3, kept as
the spec's §4.2 rationale describes: an ordered sequence of outstanding
requests by submission time (each entry flagged dispatched or held), plus
the next submission-order position. -/
structure EngineState where
  queue : List Entry
  nextId : Nat
deriving DecidableEq, Repr

def EngineState.init : EngineState := ⟨[], 0⟩

/-- Modelled from the spec: `submit` of §4.2 (the engine implementation is
missing from the sources).  The request is appended to the ledger and
becomes dispatched iff it conflicts with no earlier outstanding request;
the returned `Bool` is true iff it was forwarded to the executor. -/
def submit (s : EngineState) (r : Request) : EngineState × Bool :=
  let d := !conflictsWithAny s.queue r
  (⟨s.queue ++ [⟨s.nextId, r, d⟩], s.nextId + 1⟩, d)

/-- Removal of a completed request from the ledger (spec §4.2). -/
def removeId (q : List Entry) (i : Nat) : List Entry :=
  q.filter (fun e => e.id != i)

/-- Modelled from the spec: the greedy left-to-right promotion scan of
§4.2/§4.2-rationale (the engine implementation is missing from the
sources).  `pre` is the already-scanned prefix of the sequence; a scanned
entry becomes dispatched iff it already was or it conflicts with no entry
of the prefix.  Since `conflictsWithAny` reads only byte ranges and never
the dispatched flags, accumulating the original entries in `pre` gives
exactly the spec's scan in which every earlier entry, promoted or not,
"already counts as occupying its slot"; one such pass is already a
fixpoint. -/
def promoteAux (pre : List Entry) : List Entry → List Entry
  | [] => []
  | e :: rest =>
      { e with dispatched := e.dispatched || !conflictsWithAny pre e.req } ::
        promoteAux (pre ++ [e]) rest

/-- Modelled from the spec: the identities forwarded during the promotion
scan of §4.2, in scan order (held entries that the scan promotes). -/
def promotedIdsAux (pre : List Entry) : List Entry → List Nat
  | [] => []
  | e :: rest =>
      if !e.dispatched && !conflictsWithAny pre e.req then
        e.id :: promotedIdsAux (pre ++ [e]) rest
      else
        promotedIdsAux (pre ++ [e]) rest

/-- Modelled from the spec: `on_completion` of §4.2 (the engine
implementation is missing from the sources): the completed request is
removed from the ledger and every held request is re-evaluated in
submission order. -/
def on_completion (s : EngineState) (i : Nat) : EngineState :=
  ⟨promoteAux [] (removeId s.queue i), s.nextId⟩

/-- Whether identity `i` is currently dispatched in the ledger. -/
def isDispatched (q : List Entry) (i : Nat) : Bool :=
  q.any (fun e => e.id == i && e.dispatched)

/-- The observable events at the engine's boundary (spec §6): `submitted i`
is the caller's `submit` call, `forwarded i` the engine's outbound
`forward`/`submit_fun` call to the executor, `completed i` the executor's
inbound `on_completion` call, and `reported i` the engine's outbound
`report_done`/`done_fun` call to the original caller. -/
inductive Ev where
  | submitted (i : Nat)
  | forwarded (i : Nat)
  | completed (i : Nat)
  | reported (i : Nat)
deriving DecidableEq, Repr

/-- The whole system: engine state, the list of submitted requests
(position `i` is the request with identity `i`), and the chronological
event trace. -/
structure Sys where
  st : EngineState
  subs : List Request
  trace : List Ev
deriving DecidableEq, Repr

def Sys.start : Sys := ⟨EngineState.init, [], []⟩

/-- The two inbound operations that drive the engine (spec §6). -/
inductive Op where
  | submit (r : Request)
  | complete (i : Nat)
deriving DecidableEq, Repr

/-- Modelled from the spec: one serialized inbound call (§5) and the events
it produces (the engine implementation is missing from the sources).  A
`submit` appends the request and forwards it at once iff it is
dispatchable (§4.2); a `complete` for a currently dispatched identity
removes it, forwards the promoted held requests in submission order, and
only then reports completion to the caller (§4.2, §5c).  A `complete` for
an identity not currently dispatched is a contract violation (§4.2) and is
modelled as a no-op. -/
def stepSys (s : Sys) : Op → Sys
  | Op.submit r =>
      { st := (submit s.st r).1
        subs := s.subs ++ [r]
        trace := s.trace ++ [Ev.submitted s.st.nextId] ++
          (if (submit s.st r).2 then [Ev.forwarded s.st.nextId] else []) }
  | Op.complete i =>
      if isDispatched s.st.queue i then
        { st := on_completion s.st i
          subs := s.subs
          trace := s.trace ++ [Ev.completed i] ++
            (promotedIdsAux [] (removeId s.st.queue i)).map Ev.forwarded ++
            [Ev.reported i] }
      else s

def runSys (ops : List Op) : Sys :=
  ops.foldl stepSys Sys.start

/-- One step of the scan deciding whether, for the pair `(a, b)`, every
forwarding of `b` comes after the delivery of `a`'s completion to the
engine: the first `completed a` settles the scan as true, the first
`forwarded b` before that settles it as false, every other event is
ignored. -/
def cpfStep (a b : Nat) (st : Option Bool) (e : Ev) : Option Bool :=
  match st with
  | some v => some v
  | none =>
    match e with
    | Ev.completed i => if i = a then some true else none
    | Ev.forwarded i => if i = b then some false else none
    | _ => none

def cpfState (a b : Nat) (t : List Ev) : Option Bool :=
  t.foldl (cpfStep a b) none

/-- `b` is never forwarded before `a`'s completion is delivered to the
engine (`a`'s removal from the ledger). -/
def completionPrecedesForward (a b : Nat) (t : List Ev) : Bool :=
  (cpfState a b t).getD true

/-- Like `cpfStep`, but for the claim's own ordering: the first
`reported a` (done callback to the caller) settles the scan as true, the
first `forwarded b` before that settles it as false. -/
def rpfStep (a b : Nat) (st : Option Bool) (e : Ev) : Option Bool :=
  match st with
  | some v => some v
  | none =>
    match e with
    | Ev.reported i => if i = a then some true else none
    | Ev.forwarded i => if i = b then some false else none
    | _ => none

def rpfState (a b : Nat) (t : List Ev) : Option Bool :=
  t.foldl (rpfStep a b) none

/-- `a`'s completion is reported to the caller before `b` is ever
forwarded to the executor. -/
def reportPrecedesForward (a b : Nat) (t : List Ev) : Bool :=
  (rpfState a b t).getD true

/-- From `test_driver_t::permit` in the visible test source: the simulated
backing store grows on demand, `data.resize(offset + count, 0)` when
`offset + count > data.size()`. -/
def resizeFor (s : List Nat) (n : Nat) : List Nat :=
  if s.length < n then s ++ List.replicate (n - s.length) 0 else s

/-- From `test_driver_t::permit`: the write branch,
`memcpy(data.data() + offset, buf, count)` (the store is already large
enough after `resizeFor`). -/
def writeBytes (s : List Nat) (off : Nat) (d : List Nat) : List Nat :=
  s.take off ++ d ++ s.drop (off + d.length)

/-- From `test_driver_t::permit`: the read branch,
`memcpy(buf, data.data() + offset, count)`. -/
def readBytes (s : List Nat) (off cnt : Nat) : List Nat :=
  (s.drop off).take cnt

/-- The test driver of the visible source (`test_driver_t`): the engine,
the simulated backing store `data`, and the bytes each completed read
returned (keyed by request identity). -/
structure Driver where
  st : EngineState
  store : List Nat
  readResults : List (Nat × List Nat)
deriving DecidableEq, Repr

def Driver.start : Driver := ⟨EngineState.init, [], []⟩

/-- The two things a test scenario does to the driver: submit a request
(`read_test_t`/`write_test_t` constructors) and `permit` a request
(perform its simulated I/O and pass it to the engine's `done`).  As in
`test_driver_t::permit`, a permit only acts on a request that has begun
(was forwarded to the executor) and has not completed. -/
inductive DOp where
  | dsubmit (r : Request)
  | dpermit (i : Nat)
deriving DecidableEq, Repr

/-- One driver step.  `dsubmit` feeds the request to the engine
(`conflict_resolver.submit`).  `dpermit i`, following
`test_driver_t::permit`, looks the outstanding request up, and if it has
been forwarded, resizes the store, performs the `memcpy` of the proper
direction, and calls the engine's `done` (`on_completion`).  Negative
offsets are a contract violation (spec §7); the store indexes by
`offset.toNat`. -/
def stepDriver (d : Driver) : DOp → Driver
  | DOp.dsubmit r => { d with st := (submit d.st r).1 }
  | DOp.dpermit i =>
      match d.st.queue.find? (fun e => e.id == i) with
      | some e =>
          if e.dispatched then
            let s1 := resizeFor d.store (e.req.offset.toNat + e.req.count)
            if e.req.is_read then
              { st := on_completion d.st i
                store := s1
                readResults := d.readResults ++
                  [(i, readBytes s1 e.req.offset.toNat e.req.count)] }
            else
              { st := on_completion d.st i
                store := writeBytes s1 e.req.offset.toNat e.req.data
                readResults := d.readResults }
          else d
      | none => d

def runDriver (ops : List DOp) : Driver :=
  ops.foldl stepDriver Driver.start

/-- The sequential test scenario: submit every request in order, then
permit them in submission order (the order every scenario of the visible
test file uses, and one total order consistent with the engine's
guarantees). -/
def seqOps (reqs : List Request) : List DOp :=
  reqs.map DOp.dsubmit ++ (List.range reqs.length).map DOp.dpermit

def seqRun (reqs : List Request) : Driver :=
  runDriver (seqOps reqs)

/-- Whether write request `r` covers store position `pos`. -/
def covers (r : Request) (pos : Nat) : Bool :=
  !r.is_read && decide (r.offset.toNat ≤ pos) &&
    decide (pos < r.offset.toNat + r.count)

/-- The byte the most recent covering write put at store position `pos`
(the argument list is most-recent-first), `0` where no write has covered
the position (the store is zero-initialized on growth). -/
def lwb (pos : Nat) : List Request → Nat
  | [] => 0
  | r :: rest =>
      if covers r pos then r.data.getD (pos - r.offset.toNat) 0 else lwb pos rest

/-- The bytes the spec says a read request `r`, submitted after exactly the
requests of `prior` (in submission order), must return. -/
def expectedBytes (prior : List Request) (r : Request) : List Nat :=
  (List.range r.count).map (fun k => lwb (r.offset.toNat + k) prior.reverse)

/-- First-match lookup among the recorded read results. -/
def lookupRes : List (Nat × List Nat) → Nat → Option (List Nat)
  | [], _ => none
  | (i, v) :: rest, j => if i = j then some v else lookupRes rest j

/-- The identity/request pairs a run of submissions starting at identity
`n` puts into the ledger, in submission order. -/
def enumFrom (n : Nat) : List Request → List (Nat × Request)
  | [] => []
  | r :: rest => (n, r) :: enumFrom (n + 1) rest

/-- The read results the spec requires after the first `k` requests of
`reqs` have been permitted in submission order: one record per read, whose
bytes come from the most recent prior covering write. -/
def buildRes (reqs : List Request) : Nat → List (Nat × List Nat)
  | 0 => []
  | k + 1 =>
      buildRes reqs k ++
        (match reqs[k]? with
          | some r => if r.is_read then [(k, expectedBytes (reqs.take k) r)] else []
          | none => [])

/-- The oldest outstanding request is always dispatched (it has no earlier
outstanding request to conflict with). -/
def headDisp (q : List Entry) : Prop :=
  ∀ e, q.head? = some e → e.dispatched = true

/-- The per-pair safety relation over ledger entries in submission order: a
later entry, if dispatched, conflicts with no earlier entry (spec §4.2:
dispatch requires no conflict with any earlier outstanding request). -/
def safeR (a b : Entry) : Prop :=
  b.dispatched = true → conflict a.req b.req = false

/-- Everything that holds of every reachable system state: the ledger is
consistent with the submission record and with the event trace, dispatched
entries never conflict with any earlier outstanding entry, each identity is
forwarded and reported at most once, and for every conflicting pair the
later one is never forwarded before the earlier one's completion. -/
structure Inv (s : Sys) : Prop where
  len_eq : s.st.nextId = s.subs.length
  ids_lt : ∀ e ∈ s.st.queue, e.id < s.st.nextId
  ids_sorted : (s.st.queue.map (fun e => e.id)).Pairwise (fun x y => x < y)
  req_eq : ∀ e ∈ s.st.queue, s.subs[e.id]? = some e.req
  safe : List.Pairwise safeR s.st.queue
  disp_fwd : ∀ e ∈ s.st.queue, (e.dispatched = true ↔ Ev.forwarded e.id ∈ s.trace)
  out_rep : ∀ i, i < s.st.nextId →
    ((∃ e ∈ s.st.queue, e.id = i) ↔ Ev.reported i ∉ s.trace)
  hi_fwd : ∀ i, s.st.nextId ≤ i → Ev.forwarded i ∉ s.trace
  hi_rep : ∀ i, s.st.nextId ≤ i → Ev.reported i ∉ s.trace
  hi_com : ∀ i, s.st.nextId ≤ i → Ev.completed i ∉ s.trace
  fwd_count : ∀ i, s.trace.count (Ev.forwarded i) ≤ 1
  rep_count : ∀ i, s.trace.count (Ev.reported i) ≤ 1
  rep_com : ∀ i, (Ev.reported i ∈ s.trace ↔ Ev.completed i ∈ s.trace)
  order_ok : ∀ a b ra rb, s.subs[a]? = some ra → s.subs[b]? = some rb →
    a < b → conflict ra rb = true → cpfState a b s.trace ≠ some false

/-! ### Basic lemmas about the conflict check and the promotion scan -/

theorem conflictsWithAny_nil (r : Request) : conflictsWithAny [] r = false := rfl

theorem conflictsWithAny_append (l₁ l₂ : List Entry) (r : Request) :
    conflictsWithAny (l₁ ++ l₂) r = (conflictsWithAny l₁ r || conflictsWithAny l₂ r) := by
  simp [conflictsWithAny, List.any_append]

theorem conflictsWithAny_eq_false_iff (l : List Entry) (r : Request) :
    conflictsWithAny l r = false ↔ ∀ e ∈ l, conflict e.req r = false := by
  simp [conflictsWithAny, List.any_eq_false]

theorem conflictsWithAny_eq_true_iff (l : List Entry) (r : Request) :
    conflictsWithAny l r = true ↔ ∃ e ∈ l, conflict e.req r = true := by
  simp [conflictsWithAny, List.any_eq_true]

theorem promoteAux_append (l₁ l₂ pre : List Entry) :
    promoteAux pre (l₁ ++ l₂) = promoteAux pre l₁ ++ promoteAux (pre ++ l₁) l₂ := by
  induction l₁ generalizing pre with
  | nil => simp [promoteAux]
  | cons e rest ih =>
      simp only [List.cons_append, promoteAux, List.append_eq]
      rw [ih (pre ++ [e]), List.append_assoc, List.singleton_append]

theorem promoteAux_map_id (l pre : List Entry) :
    (promoteAux pre l).map (fun e => e.id) = l.map (fun e => e.id) := by
  induction l generalizing pre with
  | nil => rfl
  | cons e rest ih => simp [promoteAux, ih]

theorem promoteAux_map_req (l pre : List Entry) :
    (promoteAux pre l).map (fun e => e.req) = l.map (fun e => e.req) := by
  induction l generalizing pre with
  | nil => rfl
  | cons e rest ih => simp [promoteAux, ih]

theorem promoteAux_length (l pre : List Entry) :
    (promoteAux pre l).length = l.length := by
  induction l generalizing pre with
  | nil => rfl
  | cons e rest ih => simp [promoteAux, ih]

theorem promoteAux_mem (l pre : List Entry) (e' : Entry) (h : e' ∈ promoteAux pre l) :
    ∃ e ∈ l, e'.id = e.id ∧ e'.req = e.req ∧ (e.dispatched = true → e'.dispatched = true) := by
  induction l generalizing pre with
  | nil => simp [promoteAux] at h
  | cons e rest ih =>
      simp only [promoteAux, List.mem_cons] at h
      rcases h with h | h
      · refine ⟨e, List.mem_cons_self _ _, by simp [h], by simp [h], ?_⟩
        intro hd
        simp [h, hd]
      · obtain ⟨f, hf, h1, h2, h3⟩ := ih (pre ++ [e]) h
        exact ⟨f, List.mem_cons_of_mem _ hf, h1, h2, h3⟩

theorem promoteAux_mem_id (l pre : List Entry) (e' : Entry) (h : e' ∈ promoteAux pre l) :
    e'.id ∈ l.map (fun e => e.id) := by
  rw [← promoteAux_map_id l pre]
  exact List.mem_map_of_mem _ h

theorem promoteAux_head (e : Entry) (rest : List Entry) :
    promoteAux [] (e :: rest) =
      { e with dispatched := true } :: promoteAux [e] rest := by
  simp [promoteAux, conflictsWithAny_nil]

theorem promoteAux_safe (l : List Entry) :
    ∀ pre : List Entry, List.Pairwise safeR (pre ++ l) →
      List.Pairwise safeR (pre ++ promoteAux pre l) := by
  induction l with
  | nil => intro pre h; simpa [promoteAux] using h
  | cons e rest ih =>
      intro pre h
      have hassoc : pre ++ e :: rest = (pre ++ [e]) ++ rest := by
        simp [List.append_assoc]
      have h2 : List.Pairwise safeR ((pre ++ [e]) ++ promoteAux (pre ++ [e]) rest) := by
        apply ih
        rw [← hassoc]
        exact h
      rw [List.append_assoc, List.singleton_append] at h2
      simp only [promoteAux]
      rw [List.pairwise_append] at h2 ⊢
      obtain ⟨h2pre, h2cons, h2cross⟩ := h2
      rw [List.pairwise_cons] at h2cons ⊢
      obtain ⟨h2head, h2tail⟩ := h2cons
      refine ⟨h2pre, ⟨?_, h2tail⟩, ?_⟩
      · intro b hb
        intro hbd
        exact h2head b hb hbd
      · intro a ha b hb
        rcases List.mem_cons.mp hb with hbe | hbP
        · subst hbe
          intro hbd
          simp only [Bool.or_eq_true, Bool.not_eq_true'] at hbd
          rcases hbd with hed | hcwa
          · exact h2cross a ha e (List.mem_cons_self _ _) hed
          · exact (conflictsWithAny_eq_false_iff pre e.req).mp hcwa a ha
        · exact h2cross a ha b (List.mem_cons_of_mem _ hbP)

theorem removeId_sublist (q : List Entry) (i : Nat) : List.Sublist (removeId q i) q :=
  List.filter_sublist q

theorem safe_submit (s : EngineState) (r : Request)
    (h : List.Pairwise safeR s.queue) :
    List.Pairwise safeR ((submit s r).1).queue := by
  simp only [submit]
  rw [List.pairwise_append]
  refine ⟨h, List.pairwise_singleton _ _, ?_⟩
  intro a ha b hb
  rcases List.mem_singleton.mp hb with rfl
  intro hbd
  simp only at hbd
  rw [Bool.not_eq_true'] at hbd
  exact (conflictsWithAny_eq_false_iff s.queue r).mp hbd a ha

theorem safe_on_completion (s : EngineState) (i : Nat)
    (h : List.Pairwise safeR s.queue) :
    List.Pairwise safeR (on_completion s i).queue := by
  simp only [on_completion]
  have h1 : List.Pairwise safeR (removeId s.queue i) :=
    h.sublist (removeId_sublist s.queue i)
  have h2 := promoteAux_safe (removeId s.queue i) [] (by simpa using h1)
  simpa using h2

theorem promotedIdsAux_sublist (l : List Entry) :
    ∀ pre, List.Sublist (promotedIdsAux pre l) (l.map (fun e => e.id)) := by
  induction l with
  | nil => intro pre; simp [promotedIdsAux]
  | cons e rest ih =>
      intro pre
      simp only [promotedIdsAux, List.map_cons]
      by_cases hc : (!e.dispatched && !conflictsWithAny pre e.req) = true
      · rw [if_pos hc]
        exact List.Sublist.cons₂ _ (ih (pre ++ [e]))
      · rw [if_neg hc]
        exact List.Sublist.cons _ (ih (pre ++ [e]))

theorem mem_promotedIdsAux (l : List Entry) :
    ∀ pre i, i ∈ promotedIdsAux pre l →
      ∃ l₁ e l₂, l = l₁ ++ e :: l₂ ∧ e.id = i ∧ e.dispatched = false ∧
        conflictsWithAny (pre ++ l₁) e.req = false := by
  induction l with
  | nil => intro pre i h; simp [promotedIdsAux] at h
  | cons e rest ih =>
      intro pre i h
      simp only [promotedIdsAux] at h
      by_cases hc : (!e.dispatched && !conflictsWithAny pre e.req) = true
      · rw [if_pos hc] at h
        simp only [Bool.and_eq_true, Bool.not_eq_true'] at hc
        rcases List.mem_cons.mp h with rfl | h'
        · exact ⟨[], e, rest, by simp, rfl, hc.1, by simpa using hc.2⟩
        · obtain ⟨l₁, f, l₂, hsplit, hid, hdisp, hcwa⟩ := ih (pre ++ [e]) i h'
          refine ⟨e :: l₁, f, l₂, by simp [hsplit], hid, hdisp, ?_⟩
          rw [← hcwa]
          simp [List.append_assoc]
      · rw [if_neg hc] at h
        obtain ⟨l₁, f, l₂, hsplit, hid, hdisp, hcwa⟩ := ih (pre ++ [e]) i h
        refine ⟨e :: l₁, f, l₂, by simp [hsplit], hid, hdisp, ?_⟩
        rw [← hcwa]
        simp [List.append_assoc]

/-- The scan's bookkeeping matches its forwarding events: after the scan,
an entry is dispatched iff a forwarding event for its identity is in the
trace extended with the scan's own forwardings. -/
theorem promote_disp_fwd (T : List Ev) (l : List Entry) :
    ∀ pre : List Entry, (l.map (fun e => e.id)).Nodup →
      (∀ e ∈ l, (e.dispatched = true ↔ Ev.forwarded e.id ∈ T)) →
      ∀ e' ∈ promoteAux pre l,
        (e'.dispatched = true ↔
          Ev.forwarded e'.id ∈ T ++ (promotedIdsAux pre l).map Ev.forwarded) := by
  induction l with
  | nil => intro pre hnd hfwd e' h; simp [promoteAux] at h
  | cons e rest ih =>
      intro pre hnd hfwd e' h
      have hndtail : (rest.map (fun e => e.id)).Nodup := by
        simpa using hnd.of_cons
      have hnotmem : e.id ∉ rest.map (fun f => f.id) := by
        have := hnd
        rw [List.map_cons, List.nodup_cons] at this
        exact this.1
      have hfwdtail : ∀ f ∈ rest, (f.dispatched = true ↔ Ev.forwarded f.id ∈ T) :=
        fun f hf => hfwd f (List.mem_cons_of_mem _ hf)
      simp only [promoteAux, List.mem_cons] at h
      rcases h with rfl | htail
      · -- the head of the scan
        simp only [promotedIdsAux]
        by_cases hd : e.dispatched = true
        · have hmemT : Ev.forwarded e.id ∈ T := (hfwd e (List.mem_cons_self _ _)).mp hd
          have hguard : (!e.dispatched && !conflictsWithAny pre e.req) = false := by
            simp [hd]
          rw [hguard]
          simp only [if_false, Bool.false_eq_true]
          constructor
          · intro hx
            exact List.mem_append_left _ hmemT
          · intro hx
            simp [hd]
        · have hd' : e.dispatched = false := Bool.eq_false_iff.mpr hd
          by_cases hc : conflictsWithAny pre e.req = true
          · have hguard : (!e.dispatched && !conflictsWithAny pre e.req) = false := by
              simp [hc]
            rw [hguard]
            simp only [if_false, Bool.false_eq_true]
            apply iff_of_false
            · simp [hd', hc]
            · intro hx
              rcases List.mem_append.mp hx with hx | hx
              · have hxd := (hfwd e (List.mem_cons_self _ _)).mpr hx
                rw [hd'] at hxd
                exact Bool.false_ne_true hxd
              · obtain ⟨j, hj, hje⟩ := List.mem_map.mp hx
                have hj2 : j = e.id := by
                  injection hje with h
                subst hj2
                exact hnotmem ((promotedIdsAux_sublist rest (pre ++ [e])).mem hj)
          · have hc' : conflictsWithAny pre e.req = false := Bool.eq_false_iff.mpr hc
            have hguard : (!e.dispatched && !conflictsWithAny pre e.req) = true := by
              simp [hd', hc']
            rw [hguard]
            simp only [if_true]
            apply iff_of_true
            · simp [hc']
            · refine List.mem_append_right _ ?_
              simp
      · -- an entry of the scanned tail
        have hih := ih (pre ++ [e]) hndtail hfwdtail e' htail
        have hidmem : e'.id ∈ rest.map (fun f => f.id) :=
          promoteAux_mem_id rest (pre ++ [e]) e' htail
        have hne : e'.id ≠ e.id := by
          intro hx
          rw [hx] at hidmem
          exact hnotmem hidmem
        simp only [promotedIdsAux]
        by_cases hg : (!e.dispatched && !conflictsWithAny pre e.req) = true
        · rw [hg]
          simp only [if_true, List.map_cons]
          rw [hih]
          constructor
          · intro hx
            rcases List.mem_append.mp hx with hx | hx
            · exact List.mem_append_left _ hx
            · exact List.mem_append_right _ (List.mem_cons_of_mem _ hx)
          · intro hx
            rcases List.mem_append.mp hx with hx | hx
            · exact List.mem_append_left _ hx
            · rcases List.mem_cons.mp hx with hx | hx
              · exfalso
                have hxid : e'.id = e.id := by
                  injection hx with h
                exact hne hxid
              · exact List.mem_append_right _ hx
        · have hg' : (!e.dispatched && !conflictsWithAny pre e.req) = false :=
            Bool.eq_false_iff.mpr hg
          rw [hg']
          simp only [Bool.false_eq_true, if_false]
          exact hih

/-! ### Lemmas about the ordering scans -/

theorem cpfStep_foldl_some (a b : Nat) (v : Bool) (l : List Ev) :
    l.foldl (cpfStep a b) (some v) = some v := by
  induction l with
  | nil => rfl
  | cons e rest ih => simpa [cpfStep] using ih

theorem cpfState_append (a b : Nat) (t l : List Ev) :
    cpfState a b (t ++ l) = l.foldl (cpfStep a b) (cpfState a b t) := by
  simp [cpfState, List.foldl_append]

theorem cpfState_some_true (a b : Nat) (t : List Ev) :
    Ev.completed a ∈ t → Ev.forwarded b ∉ t → cpfState a b t = some true := by
  induction t with
  | nil => intro ha _; simp at ha
  | cons e rest ih =>
      intro ha hb
      have hb' : Ev.forwarded b ∉ rest := fun hx => hb (List.mem_cons_of_mem _ hx)
      have hstep : cpfState a b (e :: rest) = rest.foldl (cpfStep a b) (cpfStep a b none e) := by
        simp [cpfState]
      rw [hstep]
      cases e with
      | completed i =>
          by_cases hia : i = a
          · simp only [cpfStep, if_pos hia]
            exact cpfStep_foldl_some a b true rest
          · have ha' : Ev.completed a ∈ rest := by
              rcases List.mem_cons.mp ha with h | h
              · exfalso
                have : a = i := by injection h with h2
                exact hia this.symm
              · exact h
            simp only [cpfStep, if_neg hia]
            exact ih ha' hb'
      | forwarded i =>
          have hib : ¬ i = b := by
            intro h
            subst h
            exact hb (List.mem_cons_self _ _)
          have ha' : Ev.completed a ∈ rest := by
            rcases List.mem_cons.mp ha with h | h
            · exact absurd h (by simp)
            · exact h
          simp only [cpfStep, if_neg hib]
          exact ih ha' hb'
      | submitted i =>
          have ha' : Ev.completed a ∈ rest := by
            rcases List.mem_cons.mp ha with h | h
            · exact absurd h (by simp)
            · exact h
          simp only [cpfStep]
          exact ih ha' hb'
      | reported i =>
          have ha' : Ev.completed a ∈ rest := by
            rcases List.mem_cons.mp ha with h | h
            · exact absurd h (by simp)
            · exact h
          simp only [cpfStep]
          exact ih ha' hb'

theorem cpfStep_foldl_ne_false (a b : Nat) (l : List Ev) :
    ∀ st : Option Bool, st ≠ some false → Ev.forwarded b ∉ l →
      l.foldl (cpfStep a b) st ≠ some false := by
  induction l with
  | nil => intro st h _; simpa using h
  | cons e rest ih =>
      intro st h hb
      rw [List.foldl_cons]
      apply ih
      · cases st with
        | some v =>
            cases v with
            | true => simp [cpfStep]
            | false => exact absurd rfl h
        | none =>
            cases e with
            | completed i =>
                by_cases hia : i = a <;> simp [cpfStep, hia]
            | forwarded i =>
                have hib : ¬ i = b := by
                  intro hx
                  subst hx
                  exact hb (List.mem_cons_self _ _)
                simp [cpfStep, hib]
            | submitted i => simp [cpfStep]
            | reported i => simp [cpfStep]
      · exact fun hx => hb (List.mem_cons_of_mem _ hx)

theorem cpfState_ne_false_of_not_fwd (a b : Nat) (t : List Ev)
    (hb : Ev.forwarded b ∉ t) : cpfState a b t ≠ some false := by
  have : cpfState a b t = t.foldl (cpfStep a b) none := rfl
  rw [this]
  exact cpfStep_foldl_ne_false a b t none (by simp) hb

theorem count_map_forwarded (ids : List Nat) (j : Nat) :
    ((ids.map Ev.forwarded).count (Ev.forwarded j)) = ids.count j := by
  induction ids with
  | nil => rfl
  | cons x rest ih =>
      simp only [List.map_cons, List.count_cons, ih]
      by_cases hx : x = j
      · simp [hx]
      · have : ¬ (Ev.forwarded x = Ev.forwarded j) := by
          intro h
          exact hx (by injection h with h2)
        simp [hx, this]

theorem mem_removeId (q : List Entry) (i : Nat) (e : Entry) :
    e ∈ removeId q i ↔ e ∈ q ∧ e.id ≠ i := by
  simp [removeId, List.mem_filter, bne_iff_ne]

/-! ### The reachable-state invariant -/

theorem inv_start : Inv Sys.start := by
  constructor <;> simp [Sys.start, EngineState.init, cpfState]

theorem count_singleton_ne (x y : Ev) (h : x ≠ y) : ([y].count x) = 0 :=
  List.count_eq_zero.mpr (by simp [h])

theorem inv_submit (s : Sys) (r : Request) (hI : Inv s) :
    Inv (stepSys s (Op.submit r)) := by
  have hq1 : (stepSys s (Op.submit r)).st.queue =
      s.st.queue ++ [⟨s.st.nextId, r, !conflictsWithAny s.st.queue r⟩] := rfl
  have hn1 : (stepSys s (Op.submit r)).st.nextId = s.st.nextId + 1 := rfl
  have hsubs : (stepSys s (Op.submit r)).subs = s.subs ++ [r] := rfl
  have htr : (stepSys s (Op.submit r)).trace =
      s.trace ++ [Ev.submitted s.st.nextId] ++
        (if !conflictsWithAny s.st.queue r then [Ev.forwarded s.st.nextId] else []) := rfl
  have hlen : s.subs.length = s.st.nextId := hI.len_eq.symm
  have hrepm : ∀ j, (Ev.reported j ∈ (stepSys s (Op.submit r)).trace ↔
      Ev.reported j ∈ s.trace) := by
    intro j
    rw [htr]
    by_cases hd : (!conflictsWithAny s.st.queue r) = true <;> simp [hd]
  have hcomm : ∀ j, (Ev.completed j ∈ (stepSys s (Op.submit r)).trace ↔
      Ev.completed j ∈ s.trace) := by
    intro j
    rw [htr]
    by_cases hd : (!conflictsWithAny s.st.queue r) = true <;> simp [hd]
  have hfwdm : ∀ j, (Ev.forwarded j ∈ (stepSys s (Op.submit r)).trace ↔
      (Ev.forwarded j ∈ s.trace ∨
        (j = s.st.nextId ∧ (!conflictsWithAny s.st.queue r) = true))) := by
    intro j
    rw [htr]
    by_cases hd : (!conflictsWithAny s.st.queue r) = true <;> simp [hd]
  constructor
  · rw [hn1, hsubs, hI.len_eq]
    simp
  · intro e he
    rw [hq1] at he
    rw [hn1]
    rcases List.mem_append.mp he with h | h
    · exact Nat.lt_succ_of_lt (hI.ids_lt e h)
    · rcases List.mem_singleton.mp h with rfl
      simp
  · rw [hq1, List.map_append, List.pairwise_append]
    refine ⟨hI.ids_sorted, by simp, ?_⟩
    intro x hx y hy
    obtain ⟨e, he, rfl⟩ := List.mem_map.mp hx
    have hy' : y = s.st.nextId := by simpa using hy
    subst hy'
    exact hI.ids_lt e he
  · intro e he
    rw [hq1] at he
    rw [hsubs]
    rcases List.mem_append.mp he with h | h
    · have hlt : e.id < s.subs.length := by
        rw [hlen]
        exact hI.ids_lt e h
      rw [List.getElem?_append_left hlt]
      exact hI.req_eq e h
    · rcases List.mem_singleton.mp h with rfl
      show (s.subs ++ [r])[s.st.nextId]? = some r
      rw [← hlen]
      exact List.getElem?_concat_length s.subs r
  · exact safe_submit s.st r hI.safe
  · intro e he
    rw [hq1] at he
    rcases List.mem_append.mp he with h | h
    · rw [hfwdm e.id, hI.disp_fwd e h]
      have hne : e.id ≠ s.st.nextId := Nat.ne_of_lt (hI.ids_lt e h)
      constructor
      · intro hx
        exact Or.inl hx
      · rintro (hx | ⟨hx, _⟩)
        · exact hx
        · exact absurd hx hne
    · rcases List.mem_singleton.mp h with rfl
      show (!conflictsWithAny s.st.queue r) = true ↔
        Ev.forwarded s.st.nextId ∈ (stepSys s (Op.submit r)).trace
      rw [hfwdm]
      constructor
      · intro hx
        exact Or.inr ⟨rfl, hx⟩
      · rintro (hx | ⟨_, hx⟩)
        · exact absurd hx (hI.hi_fwd s.st.nextId (le_refl _))
        · exact hx
  · intro i hi
    rw [hn1] at hi
    rw [hq1, hrepm i]
    by_cases hin : i = s.st.nextId
    · subst hin
      apply iff_of_true
      · exact ⟨⟨s.st.nextId, r, !conflictsWithAny s.st.queue r⟩,
          List.mem_append_right _ (List.mem_singleton.mpr rfl), rfl⟩
      · exact hI.hi_rep _ (le_refl _)
    · have hlt : i < s.st.nextId := Nat.lt_of_le_of_ne (Nat.lt_succ_iff.mp hi) hin
      rw [← hI.out_rep i hlt]
      constructor
      · rintro ⟨e, he, hid⟩
        rcases List.mem_append.mp he with h | h
        · exact ⟨e, h, hid⟩
        · rcases List.mem_singleton.mp h with rfl
          exact absurd hid.symm hin
      · rintro ⟨e, he, hid⟩
        exact ⟨e, List.mem_append_left _ he, hid⟩
  · intro i hi
    rw [hn1] at hi
    intro hx
    rcases (hfwdm i).mp hx with h | ⟨h1, _⟩
    · exact hI.hi_fwd i (Nat.le_of_succ_le hi) h
    · omega
  · intro i hi hx
    rw [hn1] at hi
    exact hI.hi_rep i (Nat.le_of_succ_le hi) ((hrepm i).mp hx)
  · intro i hi hx
    rw [hn1] at hi
    exact hI.hi_com i (Nat.le_of_succ_le hi) ((hcomm i).mp hx)
  · intro i
    rw [htr]
    by_cases hd : (!conflictsWithAny s.st.queue r) = true
    · rw [if_pos hd, List.count_append, List.count_append]
      have hsub0 : ([Ev.submitted s.st.nextId].count (Ev.forwarded i)) = 0 :=
        count_singleton_ne _ _ (by simp)
      by_cases hin : i = s.st.nextId
      · subst hin
        have h0 : s.trace.count (Ev.forwarded s.st.nextId) = 0 :=
          List.count_eq_zero.mpr (hI.hi_fwd _ (le_refl _))
        have h1 : ([Ev.forwarded s.st.nextId].count (Ev.forwarded s.st.nextId)) = 1 := by
          simp
        omega
      · have h1 : ([Ev.forwarded s.st.nextId].count (Ev.forwarded i)) = 0 :=
          count_singleton_ne _ _ (by simp [hin])
        have := hI.fwd_count i
        omega
    · rw [if_neg hd, List.count_append, List.count_append]
      have hsub0 : ([Ev.submitted s.st.nextId].count (Ev.forwarded i)) = 0 :=
        count_singleton_ne _ _ (by simp)
      have := hI.fwd_count i
      simp only [List.count_nil]
      omega
  · intro i
    rw [htr]
    by_cases hd : (!conflictsWithAny s.st.queue r) = true
    · rw [if_pos hd, List.count_append, List.count_append]
      have h1 : ([Ev.submitted s.st.nextId].count (Ev.reported i)) = 0 :=
        count_singleton_ne _ _ (by simp)
      have h2 : ([Ev.forwarded s.st.nextId].count (Ev.reported i)) = 0 :=
        count_singleton_ne _ _ (by simp)
      have := hI.rep_count i
      omega
    · rw [if_neg hd, List.count_append, List.count_append]
      have h1 : ([Ev.submitted s.st.nextId].count (Ev.reported i)) = 0 :=
        count_singleton_ne _ _ (by simp)
      have := hI.rep_count i
      simp only [List.count_nil]
      omega
  · intro i
    rw [hrepm i, hcomm i]
    exact hI.rep_com i
  · intro a b ra rb hga hgb hab hconf
    rw [hsubs] at hga hgb
    rw [htr]
    have hblt : b < s.subs.length + 1 := by
      have h := (List.getElem?_eq_some.mp hgb).1
      simpa using h
    by_cases hbn : b = s.st.nextId
    · subst hbn
      have hrb : rb = r := by
        rw [← hlen, List.getElem?_concat_length] at hgb
        injection hgb with h
        exact h.symm
      rw [hrb] at hconf
      have halt : a < s.st.nextId := hab
      have hga' : s.subs[a]? = some ra := by
        rw [List.getElem?_append_left (by omega : a < s.subs.length)] at hga
        exact hga
      by_cases hd : (!conflictsWithAny s.st.queue r) = true
      · rw [if_pos hd]
        have hcwa : conflictsWithAny s.st.queue r = false := by
          rw [Bool.not_eq_true'] at hd
          exact hd
        have hnoq : ¬ ∃ e ∈ s.st.queue, e.id = a := by
          rintro ⟨e, he, hid⟩
          have hre : e.req = ra := by
            have h1 := hI.req_eq e he
            rw [hid, hga'] at h1
            injection h1 with h2
            exact h2.symm
          have hcf : conflict e.req r = true := by
            rw [hre]
            exact hconf
          have h0 := (conflictsWithAny_eq_false_iff _ _).mp hcwa e he
          rw [h0] at hcf
          exact Bool.false_ne_true hcf
        have hrep : Ev.reported a ∈ s.trace := by
          by_contra hx
          exact hnoq ((hI.out_rep a halt).mpr hx)
        have hcom : Ev.completed a ∈ s.trace := (hI.rep_com a).mp hrep
        have hfwdb : Ev.forwarded s.st.nextId ∉ s.trace := hI.hi_fwd _ (le_refl _)
        have hst : cpfState a s.st.nextId s.trace = some true :=
          cpfState_some_true _ _ _ hcom hfwdb
        have hassoc : s.trace ++ [Ev.submitted s.st.nextId] ++ [Ev.forwarded s.st.nextId] =
            s.trace ++ ([Ev.submitted s.st.nextId] ++ [Ev.forwarded s.st.nextId]) := by
          rw [List.append_assoc]
        rw [hassoc, cpfState_append, hst, cpfStep_foldl_some]
        simp
      · rw [if_neg hd]
        apply cpfState_ne_false_of_not_fwd
        intro hx
        rcases List.mem_append.mp hx with hx | hx
        · rcases List.mem_append.mp hx with hx | hx
          · exact hI.hi_fwd s.st.nextId (le_refl _) hx
          · simp at hx
        · simp at hx
    · have hblt' : b < s.st.nextId := by omega
      have hga' : s.subs[a]? = some ra := by
        rw [List.getElem?_append_left (by omega : a < s.subs.length)] at hga
        exact hga
      have hgb' : s.subs[b]? = some rb := by
        rw [List.getElem?_append_left (by omega : b < s.subs.length)] at hgb
        exact hgb
      have hst := hI.order_ok a b ra rb hga' hgb' hab hconf
      rw [List.append_assoc, cpfState_append]
      apply cpfStep_foldl_ne_false _ _ _ _ hst
      intro hx
      rcases List.mem_append.mp hx with hx | hx
      · simp at hx
      · by_cases hd : (!conflictsWithAny s.st.queue r) = true
        · rw [if_pos hd] at hx
          have : b = s.st.nextId := by
            rcases List.mem_singleton.mp hx with h
            injection h with h2
          exact hbn this
        · rw [if_neg hd] at hx
          simp at hx

theorem inv_complete (s : Sys) (i : Nat) (hI : Inv s) :
    Inv (stepSys s (Op.complete i)) := by
  by_cases hdisp : isDispatched s.st.queue i = true
  case neg =>
    have hs : stepSys s (Op.complete i) = s := by
      simp [stepSys, hdisp]
    rw [hs]
    exact hI
  case pos =>
    have hq1 : (stepSys s (Op.complete i)).st.queue =
        promoteAux [] (removeId s.st.queue i) := by
      simp [stepSys, hdisp, on_completion]
    have hn1 : (stepSys s (Op.complete i)).st.nextId = s.st.nextId := by
      simp [stepSys, hdisp, on_completion]
    have hsubs : (stepSys s (Op.complete i)).subs = s.subs := by
      simp [stepSys, hdisp]
    have htr : (stepSys s (Op.complete i)).trace =
        s.trace ++ [Ev.completed i] ++
          (promotedIdsAux [] (removeId s.st.queue i)).map Ev.forwarded ++
          [Ev.reported i] := by
      simp [stepSys, hdisp]
    obtain ⟨ei, hei, heid, heidisp⟩ :
        ∃ e ∈ s.st.queue, e.id = i ∧ e.dispatched = true := by
      simp only [isDispatched, List.any_eq_true, Bool.and_eq_true, beq_iff_eq] at hdisp
      obtain ⟨e, he, h1, h2⟩ := hdisp
      exact ⟨e, he, h1, h2⟩
    have hilt : i < s.st.nextId := heid ▸ hI.ids_lt ei hei
    have hq1sorted : ((removeId s.st.queue i).map (fun e => e.id)).Pairwise
        (fun x y => x < y) :=
      hI.ids_sorted.sublist ((removeId_sublist s.st.queue i).map _)
    have hq1nodup : ((removeId s.st.queue i).map (fun e => e.id)).Nodup :=
      hq1sorted.imp (fun h => Nat.ne_of_lt h)
    have hidsnodup : (promotedIdsAux [] (removeId s.st.queue i)).Nodup :=
      (promotedIdsAux_sublist (removeId s.st.queue i) []).nodup hq1nodup
    have hidsinq1 : ∀ j ∈ promotedIdsAux [] (removeId s.st.queue i),
        j ∈ (removeId s.st.queue i).map (fun e => e.id) :=
      fun j hj => (promotedIdsAux_sublist (removeId s.st.queue i) []).mem hj
    have hmemq' : ∀ e' ∈ promoteAux [] (removeId s.st.queue i),
        ∃ e ∈ s.st.queue, e'.id = e.id ∧ e'.req = e.req ∧ e.id ≠ i := by
      intro e' h
      obtain ⟨f, hf, h1, h2, _⟩ := promoteAux_mem _ _ _ h
      obtain ⟨hfq, hfne⟩ := (mem_removeId _ _ _).mp hf
      exact ⟨f, hfq, h1, h2, hfne⟩
    have hrepm : ∀ j, (Ev.reported j ∈ (stepSys s (Op.complete i)).trace ↔
        (Ev.reported j ∈ s.trace ∨ j = i)) := by
      intro j
      rw [htr]
      simp [List.mem_append, List.mem_map]
    have hcomm : ∀ j, (Ev.completed j ∈ (stepSys s (Op.complete i)).trace ↔
        (Ev.completed j ∈ s.trace ∨ j = i)) := by
      intro j
      rw [htr]
      simp [List.mem_append, List.mem_map]
    have hfwdm : ∀ j, (Ev.forwarded j ∈ (stepSys s (Op.complete i)).trace ↔
        (Ev.forwarded j ∈ s.trace ∨ j ∈ promotedIdsAux [] (removeId s.st.queue i))) := by
      intro j
      rw [htr]
      simp [List.mem_append, List.mem_map]
    constructor
    · rw [hn1, hsubs]
      exact hI.len_eq
    · intro e' he'
      rw [hq1] at he'
      rw [hn1]
      obtain ⟨f, hfq, h1, _, _⟩ := hmemq' e' he'
      rw [h1]
      exact hI.ids_lt f hfq
    · rw [hq1, promoteAux_map_id]
      exact hq1sorted
    · intro e' he'
      rw [hq1] at he'
      rw [hsubs]
      obtain ⟨f, hfq, h1, h2, _⟩ := hmemq' e' he'
      rw [h1, h2]
      exact hI.req_eq f hfq
    · have hst : (stepSys s (Op.complete i)).st = on_completion s.st i := by
        simp [stepSys, hdisp]
      rw [hst]
      exact safe_on_completion s.st i hI.safe
    · intro e' he'
      rw [hq1] at he'
      have hTfwd : ∀ f ∈ removeId s.st.queue i,
          (f.dispatched = true ↔ Ev.forwarded f.id ∈ s.trace ++ [Ev.completed i]) := by
        intro f hf
        obtain ⟨hfq, _⟩ := (mem_removeId _ _ _).mp hf
        rw [hI.disp_fwd f hfq]
        simp
      have hmain := promote_disp_fwd (s.trace ++ [Ev.completed i])
        (removeId s.st.queue i) [] hq1nodup hTfwd e' he'
      rw [hmain, htr]
      simp [List.mem_append]
    · intro j hj
      rw [hn1] at hj
      rw [hq1]
      by_cases hji : j = i
      · subst hji
        apply iff_of_false
        · rintro ⟨e', he', hid⟩
          obtain ⟨f, hfq, h1, _, hfne⟩ := hmemq' e' he'
          rw [h1] at hid
          exact hfne hid
        · intro hx
          exact hx ((hrepm j).mpr (Or.inr rfl))
      · have hiff1 : (∃ e' ∈ promoteAux [] (removeId s.st.queue i), e'.id = j) ↔
            (∃ f ∈ s.st.queue, f.id = j) := by
          constructor
          · rintro ⟨e', he', hid⟩
            obtain ⟨f, hfq, h1, _, _⟩ := hmemq' e' he'
            rw [h1] at hid
            exact ⟨f, hfq, hid⟩
          · rintro ⟨f, hfq, hid⟩
            have hf1 : f ∈ removeId s.st.queue i :=
              (mem_removeId _ _ _).mpr ⟨hfq, by rw [hid]; exact hji⟩
            have : j ∈ (promoteAux [] (removeId s.st.queue i)).map (fun e => e.id) := by
              rw [promoteAux_map_id]
              exact List.mem_map.mpr ⟨f, hf1, hid⟩
            obtain ⟨e', he', hid'⟩ := List.mem_map.mp this
            exact ⟨e', he', hid'⟩
        rw [hiff1, hI.out_rep j hj]
        have : (Ev.reported j ∈ (stepSys s (Op.complete i)).trace ↔
            Ev.reported j ∈ s.trace) := by
          rw [hrepm j]
          simp [hji]
        rw [this]
    · intro j hj
      rw [hn1] at hj
      intro hx
      rcases (hfwdm j).mp hx with h | h
      · exact hI.hi_fwd j hj h
      · obtain ⟨f, hf, hfid⟩ := List.mem_map.mp (hidsinq1 j h)
        have hfq := ((mem_removeId _ _ _).mp hf).1
        have := hI.ids_lt f hfq
        omega
    · intro j hj
      rw [hn1] at hj
      intro hx
      rcases (hrepm j).mp hx with h | h
      · exact hI.hi_rep j hj h
      · omega
    · intro j hj
      rw [hn1] at hj
      intro hx
      rcases (hcomm j).mp hx with h | h
      · exact hI.hi_com j hj h
      · omega
    · intro j
      rw [htr]
      rw [List.count_append, List.count_append, List.count_append]
      have h1 : ([Ev.completed i].count (Ev.forwarded j)) = 0 :=
        count_singleton_ne _ _ (by simp)
      have h2 : ([Ev.reported i].count (Ev.forwarded j)) = 0 :=
        count_singleton_ne _ _ (by simp)
      have h3 : (((promotedIdsAux [] (removeId s.st.queue i)).map Ev.forwarded).count
          (Ev.forwarded j)) = (promotedIdsAux [] (removeId s.st.queue i)).count j :=
        count_map_forwarded _ _
      by_cases hjmem : j ∈ promotedIdsAux [] (removeId s.st.queue i)
      · obtain ⟨l₁, e, l₂, hsplit, heidb, hedisp, _⟩ :=
          mem_promotedIdsAux _ [] j hjmem
        have heq1 : e ∈ removeId s.st.queue i := by
          rw [hsplit]
          simp
        have heq := ((mem_removeId _ _ _).mp heq1).1
        have h0 : s.trace.count (Ev.forwarded j) = 0 := by
          apply List.count_eq_zero.mpr
          intro hx
          have hx' : Ev.forwarded e.id ∈ s.trace := by
            rw [heidb]
            exact hx
          have hd2 := (hI.disp_fwd e heq).mpr hx'
          rw [hedisp] at hd2
          exact Bool.false_ne_true hd2
        have hle1 : (promotedIdsAux [] (removeId s.st.queue i)).count j ≤ 1 :=
          List.nodup_iff_count_le_one.mp hidsnodup j
        omega
      · have h4 : (promotedIdsAux [] (removeId s.st.queue i)).count j = 0 :=
          List.count_eq_zero.mpr hjmem
        have := hI.fwd_count j
        omega
    · intro j
      rw [htr]
      rw [List.count_append, List.count_append, List.count_append]
      have h1 : ([Ev.completed i].count (Ev.reported j)) = 0 :=
        count_singleton_ne _ _ (by simp)
      have h3 : (((promotedIdsAux [] (removeId s.st.queue i)).map Ev.forwarded).count
          (Ev.reported j)) = 0 := by
        apply List.count_eq_zero.mpr
        intro hx
        obtain ⟨x, _, hxe⟩ := List.mem_map.mp hx
        exact absurd hxe (by simp)
      by_cases hji : j = i
      · subst hji
        have h0 : s.trace.count (Ev.reported j) = 0 := by
          apply List.count_eq_zero.mpr
          exact (hI.out_rep j hilt).mp ⟨ei, hei, heid⟩
        have h2 : ([Ev.reported j].count (Ev.reported j)) = 1 := by
          simp
        omega
      · have h2 : ([Ev.reported i].count (Ev.reported j)) = 0 :=
          count_singleton_ne _ _ (by simp [hji])
        have := hI.rep_count j
        omega
    · intro j
      rw [hrepm j, hcomm j, hI.rep_com j]
    · intro a b ra rb hga hgb hab hconf
      rw [hsubs] at hga hgb
      rw [htr]
      have hassoc : s.trace ++ [Ev.completed i] ++
          (promotedIdsAux [] (removeId s.st.queue i)).map Ev.forwarded ++
          [Ev.reported i] =
          s.trace ++ ([Ev.completed i] ++
            ((promotedIdsAux [] (removeId s.st.queue i)).map Ev.forwarded ++
              [Ev.reported i])) := by
        simp [List.append_assoc]
      by_cases hbmem : b ∈ promotedIdsAux [] (removeId s.st.queue i)
      · obtain ⟨l₁, e, l₂, hsplit, heidb, hedisp, hcwa⟩ :=
          mem_promotedIdsAux _ [] b hbmem
        have hcwa' : conflictsWithAny l₁ e.req = false := by
          simpa using hcwa
        have heq1 : e ∈ removeId s.st.queue i := by
          rw [hsplit]
          simp
        obtain ⟨heq, hene⟩ := (mem_removeId _ _ _).mp heq1
        have hblt : b < s.st.nextId := heidb ▸ hI.ids_lt e heq
        have herb : e.req = rb := by
          have h1 := hI.req_eq e heq
          rw [heidb, hgb] at h1
          injection h1 with h2
          exact h2.symm
        have hanq1 : ¬ ∃ f ∈ removeId s.st.queue i, f.id = a := by
          rintro ⟨f, hf1, hfid⟩
          have hfq : f ∈ s.st.queue := ((mem_removeId _ _ _).mp hf1).1
          have hfra : f.req = ra := by
            have h1 := hI.req_eq f hfq
            rw [hfid, hga] at h1
            injection h1 with h2
            exact h2.symm
          have hfsplit := hf1
          rw [hsplit] at hfsplit
          rcases List.mem_append.mp hfsplit with hf | hf
          · have hc : conflict f.req e.req = true := by
              rw [hfra, herb]
              exact hconf
            have h0 := (conflictsWithAny_eq_false_iff l₁ e.req).mp hcwa' f hf
            rw [h0] at hc
            exact Bool.false_ne_true hc
          · rcases List.mem_cons.mp hf with rfl | hf
            · rw [heidb] at hfid
              omega
            · have hsorted := hq1sorted
              rw [hsplit, List.map_append, List.pairwise_append] at hsorted
              have h2 := hsorted.2.1
              rw [List.map_cons, List.pairwise_cons] at h2
              have : e.id < f.id := h2.1 f.id (List.mem_map_of_mem _ hf)
              omega
        have hstT : List.foldl (cpfStep a b) (cpfState a b s.trace)
            [Ev.completed i] = some true := by
          by_cases hai : a = i
          · subst hai
            have hst0 := hI.order_ok a b ra rb hga hgb hab hconf
            cases hc0 : cpfState a b s.trace with
            | none => simp [cpfStep]
            | some v =>
                cases v with
                | true => simp [cpfStep]
                | false => exact absurd hc0 hst0
          · have hanq : ¬ ∃ f ∈ s.st.queue, f.id = a := by
              rintro ⟨f, hfq, hfid⟩
              apply hanq1
              refine ⟨f, (mem_removeId _ _ _).mpr ⟨hfq, ?_⟩, hfid⟩
              rw [hfid]
              exact hai
            have halt : a < s.st.nextId := by omega
            have hrep : Ev.reported a ∈ s.trace := by
              by_contra hx
              exact hanq ((hI.out_rep a halt).mpr hx)
            have hcom : Ev.completed a ∈ s.trace := (hI.rep_com a).mp hrep
            have hfwdb : Ev.forwarded b ∉ s.trace := by
              intro hx
              have hx' : Ev.forwarded e.id ∈ s.trace := by
                rw [heidb]
                exact hx
              have hd2 := (hI.disp_fwd e heq).mpr hx'
              rw [hedisp] at hd2
              exact Bool.false_ne_true hd2
            have hst0 : cpfState a b s.trace = some true :=
              cpfState_some_true _ _ _ hcom hfwdb
            rw [hst0]
            simp [cpfStep]
        rw [hassoc, cpfState_append, List.foldl_append, hstT, cpfStep_foldl_some]
        simp
      · have hst := hI.order_ok a b ra rb hga hgb hab hconf
        rw [hassoc, cpfState_append]
        apply cpfStep_foldl_ne_false _ _ _ _ hst
        intro hx
        rcases List.mem_cons.mp hx with hx | hx
        · exact absurd hx (by simp)
        · simp only [List.append_eq, List.nil_append] at hx
          rcases List.mem_append.mp hx with hx | hx
          · obtain ⟨x, hxmem, hxe⟩ := List.mem_map.mp hx
            have hxb : x = b := by
              injection hxe with h
            rw [hxb] at hxmem
            exact hbmem hxmem
          · exact absurd hx (by simp)

theorem inv_step (s : Sys) (op : Op) (hI : Inv s) : Inv (stepSys s op) := by
  cases op with
  | submit r => exact inv_submit s r hI
  | complete i => exact inv_complete s i hI

theorem inv_foldl (ops : List Op) : ∀ s : Sys, Inv s → Inv (ops.foldl stepSys s) := by
  induction ops with
  | nil => exact fun s h => h
  | cons op rest ih => exact fun s h => ih _ (inv_step s op h)

theorem inv_run (ops : List Op) : Inv (runSys ops) :=
  inv_foldl ops Sys.start inv_start

theorem runSys_append_one (ops : List Op) (op : Op) :
    runSys (ops ++ [op]) = stepSys (runSys ops) op := by
  simp [runSys, List.foldl_append]

theorem pairwise_cases (R : Entry → Entry → Prop) (l : List Entry) :
    l.Pairwise R → ∀ e1 ∈ l, ∀ e2 ∈ l, e1 ≠ e2 → R e1 e2 ∨ R e2 e1 := by
  induction l with
  | nil => intro _ e1 h1; simp at h1
  | cons x rest ih =>
      intro h e1 h1 e2 h2 hne
      rw [List.pairwise_cons] at h
      rcases List.mem_cons.mp h1 with he1 | he1
      · rcases List.mem_cons.mp h2 with he2 | he2
        · exact absurd (he1.trans he2.symm) hne
        · refine Or.inl ?_
          have hx := h.1 e2 he2
          rw [← he1] at hx
          exact hx
      · rcases List.mem_cons.mp h2 with he2 | he2
        · refine Or.inr ?_
          have hx := h.1 e1 he1
          rw [← he2] at hx
          exact hx
        · exact ih h.2 e1 he1 e2 he2 hne

theorem isDispatched_exists (q : List Entry) (i : Nat) :
    isDispatched q i = true ↔ ∃ e ∈ q, e.id = i ∧ e.dispatched = true := by
  simp [isDispatched, List.any_eq_true, Bool.and_eq_true, beq_iff_eq]

theorem promotedIdsAux_append (l₁ l₂ pre : List Entry) :
    promotedIdsAux pre (l₁ ++ l₂) =
      promotedIdsAux pre l₁ ++ promotedIdsAux (pre ++ l₁) l₂ := by
  induction l₁ generalizing pre with
  | nil => simp [promotedIdsAux]
  | cons e rest ih =>
      simp only [List.cons_append, promotedIdsAux, List.append_eq]
      by_cases hg : (!e.dispatched && !conflictsWithAny pre e.req) = true
      · rw [if_pos hg, if_pos hg, ih (pre ++ [e]), List.append_assoc, List.singleton_append]
        rfl
      · rw [if_neg hg, if_neg hg, ih (pre ++ [e]), List.append_assoc, List.singleton_append]

/-- At a split of the ledger with no duplicate identities, the split entry
is among the scan's promoted identities iff it was held and conflicts with
no entry of the still-outstanding prefix. -/
theorem promoted_iff_at_split (q1 : List Entry)
    (hnd : (q1.map (fun e => e.id)).Nodup)
    (l₁ : List Entry) (e : Entry) (l₂ : List Entry) (hsplit : q1 = l₁ ++ e :: l₂) :
    (e.id ∈ promotedIdsAux [] q1 ↔
      (e.dispatched = false ∧ conflictsWithAny l₁ e.req = false)) := by
  subst hsplit
  rw [List.map_append, List.map_cons, List.nodup_append] at hnd
  obtain ⟨_, hnd2, hdisj⟩ := hnd
  rw [List.nodup_cons] at hnd2
  have hnl1 : e.id ∉ l₁.map (fun f => f.id) := by
    intro hx
    exact hdisj hx (List.mem_cons_self _ _)
  have hnl2 : e.id ∉ l₂.map (fun f => f.id) := hnd2.1
  rw [promotedIdsAux_append]
  simp only [List.nil_append]
  have hleft : e.id ∉ promotedIdsAux [] l₁ := by
    intro hx
    exact hnl1 ((promotedIdsAux_sublist l₁ []).mem hx)
  rw [List.mem_append]
  simp only [promotedIdsAux]
  by_cases hg : (!e.dispatched && !conflictsWithAny l₁ e.req) = true
  · rw [if_pos hg]
    simp only [Bool.and_eq_true, Bool.not_eq_true'] at hg
    apply iff_of_true
    · exact Or.inr (List.mem_cons_self _ _)
    · exact hg
  · rw [if_neg hg]
    apply iff_of_false
    · rintro (hx | hx)
      · exact hleft hx
      · exact hnl2 ((promotedIdsAux_sublist l₂ (l₁ ++ [e])).mem hx)
    · rintro ⟨h1, h2⟩
      apply hg
      simp [h1, h2]

/-! ### Lemmas about the simulated backing store (from the test source) -/

theorem resizeFor_length (s : List Nat) (n : Nat) :
    n ≤ (resizeFor s n).length ∧ s.length ≤ (resizeFor s n).length := by
  simp only [resizeFor]
  by_cases h : s.length < n
  · rw [if_pos h]
    simp only [List.length_append, List.length_replicate]
    omega
  · rw [if_neg h]
    omega

theorem resizeFor_getElem (s : List Nat) (n p : Nat) :
    (((resizeFor s n)[p]?).getD 0) = ((s[p]?).getD 0) := by
  simp only [resizeFor]
  by_cases h : s.length < n
  · rw [if_pos h]
    by_cases hp : p < s.length
    · rw [List.getElem?_append_left hp]
    · have hp' : s.length ≤ p := Nat.le_of_not_lt hp
      rw [List.getElem?_append_right hp', List.getElem?_eq_none hp']
      by_cases hp2 : p - s.length < n - s.length
      · rw [List.getElem?_replicate_of_lt hp2]
        rfl
      · rw [List.getElem?_eq_none (by simpa using hp2)]
  · rw [if_neg h]

theorem writeBytes_getElem (s : List Nat) (off : Nat) (d : List Nat) (p : Nat)
    (h : off + d.length ≤ s.length) :
    (((writeBytes s off d)[p]?).getD 0) =
      (if off ≤ p ∧ p < off + d.length then ((d[p - off]?).getD 0)
        else ((s[p]?).getD 0)) := by
  have htk : (s.take off).length = off := by
    simp only [List.length_take]
    omega
  have hassoc : writeBytes s off d = s.take off ++ (d ++ s.drop (off + d.length)) := by
    simp [writeBytes, List.append_assoc]
  rw [hassoc]
  by_cases h1 : p < off
  · rw [if_neg (by omega)]
    rw [List.getElem?_append_left (show p < (s.take off).length by omega)]
    rw [List.getElem?_take, if_pos h1]
  · have h1' : (s.take off).length ≤ p := by omega
    rw [List.getElem?_append_right h1', htk]
    by_cases h2 : p - off < d.length
    · rw [if_pos (by omega)]
      rw [List.getElem?_append_left h2]
    · rw [if_neg (by omega)]
      have h2' : d.length ≤ p - off := by omega
      rw [List.getElem?_append_right h2', List.getElem?_drop]
      have harith : off + d.length + (p - off - d.length) = p := by omega
      rw [harith]

theorem readBytes_eq (s : List Nat) (off cnt : Nat) (h : off + cnt ≤ s.length) :
    readBytes s off cnt = (List.range cnt).map (fun k => ((s[off + k]?).getD 0)) := by
  apply List.ext_getElem?
  intro n
  by_cases hn : n < cnt
  · rw [List.getElem?_map]
    rw [List.getElem?_range hn]
    simp only [Option.map_some']
    simp only [readBytes]
    rw [List.getElem?_take, if_pos hn, List.getElem?_drop]
    have hlt : off + n < s.length := by omega
    rw [List.getElem?_eq_getElem hlt]
    simp
  · have hn' : cnt ≤ n := Nat.le_of_not_lt hn
    have hlen1 : (readBytes s off cnt).length ≤ n := by
      simp only [readBytes, List.length_take, List.length_drop]
      omega
    have hlen2 : ((List.range cnt).map (fun k => ((s[off + k]?).getD 0))).length ≤ n := by
      simp only [List.length_map, List.length_range]
      omega
    rw [List.getElem?_eq_none hlen1, List.getElem?_eq_none hlen2]

/-! ### Lemmas about the test driver's sequential scenarios -/

theorem promoteAux_map_pair (l pre : List Entry) :
    (promoteAux pre l).map (fun e => (e.id, e.req)) = l.map (fun e => (e.id, e.req)) := by
  induction l generalizing pre with
  | nil => rfl
  | cons e rest ih => simp [promoteAux, ih]

theorem headDisp_submit (s : EngineState) (r : Request) (h : headDisp s.queue) :
    headDisp ((submit s r).1).queue := by
  intro e he
  have he' : (s.queue ++
      [(⟨s.nextId, r, !conflictsWithAny s.queue r⟩ : Entry)]).head? = some e := he
  cases hq : s.queue with
  | nil =>
      rw [hq] at he'
      simp only [List.nil_append, List.head?_cons, Option.some.injEq] at he'
      rw [← he']
      rfl
  | cons x rest =>
      rw [hq] at he'
      simp only [List.cons_append, List.head?_cons, Option.some.injEq] at he'
      rw [← he']
      exact h x (by rw [hq]; rfl)

theorem headDisp_promote (q : List Entry) : headDisp (promoteAux [] q) := by
  intro e he
  cases q with
  | nil => simp [promoteAux] at he
  | cons x rest =>
      rw [promoteAux_head] at he
      simp only [List.head?_cons, Option.some.injEq] at he
      rw [← he]

theorem foldl_dsubmit (reqs : List Request) :
    ∀ d : Driver,
      ((List.foldl stepDriver d (reqs.map DOp.dsubmit)).st.queue.map
          (fun e => (e.id, e.req)) =
        d.st.queue.map (fun e => (e.id, e.req)) ++ enumFrom d.st.nextId reqs) ∧
      (List.foldl stepDriver d (reqs.map DOp.dsubmit)).store = d.store ∧
      (List.foldl stepDriver d (reqs.map DOp.dsubmit)).readResults = d.readResults := by
  induction reqs with
  | nil => intro d; simp [enumFrom]
  | cons r rest ih =>
      intro d
      simp only [List.map_cons, List.foldl_cons]
      obtain ⟨h1, h2, h3⟩ := ih (stepDriver d (DOp.dsubmit r))
      refine ⟨?_, ?_, ?_⟩
      · have hq : (stepDriver d (DOp.dsubmit r)).st.queue =
            d.st.queue ++ [(⟨d.st.nextId, r, !conflictsWithAny d.st.queue r⟩ : Entry)] := rfl
        have hn : (stepDriver d (DOp.dsubmit r)).st.nextId = d.st.nextId + 1 := rfl
        rw [h1, hq, hn]
        simp [enumFrom, List.map_append, List.append_assoc]
      · rw [h2]
        rfl
      · rw [h3]
        rfl

theorem foldl_dsubmit_head (reqs : List Request) :
    ∀ d : Driver, headDisp d.st.queue →
      headDisp (List.foldl stepDriver d (reqs.map DOp.dsubmit)).st.queue := by
  induction reqs with
  | nil => intro d h; exact h
  | cons r rest ih =>
      intro d h
      simp only [List.map_cons, List.foldl_cons]
      exact ih _ (headDisp_submit d.st r h)

theorem enumFrom_mem_le (l : List Request) :
    ∀ (n : Nat) (p : Nat × Request), p ∈ enumFrom n l → n ≤ p.1 := by
  induction l with
  | nil => intro n p h; simp [enumFrom] at h
  | cons r rest ih =>
      intro n p h
      simp only [enumFrom, List.mem_cons] at h
      rcases h with h | h
      · rw [h]
      · have := ih (n + 1) p h
        omega

theorem enumFrom_drop (reqs : List Request) (k : Nat) (hk : k < reqs.length)
    (rk : Request) (hrk : reqs[k]? = some rk) :
    enumFrom k (reqs.drop k) = (k, rk) :: enumFrom (k + 1) (reqs.drop (k + 1)) := by
  rw [List.drop_eq_getElem_cons hk]
  have hget : reqs[k] = rk := by
    rw [List.getElem?_eq_getElem hk] at hrk
    injection hrk
  rw [hget]
  rfl

theorem lwb_cons (r : Request) (rest : List Request) (pos : Nat) :
    lwb pos (r :: rest) =
      (if covers r pos then ((r.data[pos - r.offset.toNat]?).getD 0) else lwb pos rest) := by
  simp only [lwb]
  by_cases hc : covers r pos = true
  · rw [if_pos hc, if_pos hc, List.getD_eq_getElem?_getD]
  · rw [if_neg hc, if_neg hc]

theorem seq_phase2 (reqs : List Request)
    (hw : ∀ r ∈ reqs, r.is_read = false → r.data.length = r.count) :
    ∀ (k : Nat), k ≤ reqs.length → ∀ d0 : Driver,
      d0.st.queue.map (fun e => (e.id, e.req)) = enumFrom 0 reqs →
      headDisp d0.st.queue →
      d0.store = [] → d0.readResults = [] →
      ((List.foldl stepDriver d0 ((List.range k).map DOp.dpermit)).st.queue.map
          (fun e => (e.id, e.req)) = enumFrom k (reqs.drop k)) ∧
      headDisp (List.foldl stepDriver d0 ((List.range k).map DOp.dpermit)).st.queue ∧
      (∀ p : Nat,
        (((List.foldl stepDriver d0 ((List.range k).map DOp.dpermit)).store[p]?).getD 0) =
          lwb p (reqs.take k).reverse) ∧
      (List.foldl stepDriver d0 ((List.range k).map DOp.dpermit)).readResults =
        buildRes reqs k := by
  intro k
  induction k with
  | zero =>
      intro _ d0 hproj hhead hstore hres
      simp only [List.range_zero, List.map_nil, List.foldl_nil]
      refine ⟨by simpa using hproj, hhead, ?_, by simpa [buildRes] using hres⟩
      intro p
      rw [hstore]
      simp [lwb]
  | succ k ih =>
      intro hk1 d0 hproj hhead hstore hres
      have hk : k < reqs.length := by omega
      obtain ⟨h1, h2, h3, h4⟩ := ih (by omega) d0 hproj hhead hstore hres
      have hsucc : ((List.range (k + 1)).map DOp.dpermit) =
          ((List.range k).map DOp.dpermit) ++ [DOp.dpermit k] := by
        rw [List.range_succ, List.map_append]
        rfl
      rw [hsucc, List.foldl_append]
      simp only [List.foldl_cons, List.foldl_nil]
      set dk := List.foldl stepDriver d0 ((List.range k).map DOp.dpermit) with hdk
      have hrk : reqs[k]? = some reqs[k] := List.getElem?_eq_getElem hk
      set rk := reqs[k] with hrkdef
      have hdrop := enumFrom_drop reqs k hk rk hrk
      rw [hdrop] at h1
      obtain ⟨e, q', hq, heid, hereq, hq'⟩ :
          ∃ e q', dk.st.queue = e :: q' ∧ e.id = k ∧ e.req = rk ∧
            q'.map (fun f => (f.id, f.req)) = enumFrom (k + 1) (reqs.drop (k + 1)) := by
        cases hqq : dk.st.queue with
        | nil =>
            rw [hqq] at h1
            simp at h1
        | cons x q' =>
            rw [hqq] at h1
            simp only [List.map_cons, List.cons.injEq, Prod.mk.injEq] at h1
            exact ⟨x, q', rfl, h1.1.1, h1.1.2, h1.2⟩
      have hedisp : e.dispatched = true := h2 e (by rw [hq]; rfl)
      have hfind : dk.st.queue.find? (fun f => f.id == k) = some e := by
        rw [hq]
        apply List.find?_cons_of_pos
        simp [heid]
      have hq'ids : ∀ f ∈ q', f.id ≠ k := by
        intro f hf
        have hmem : (f.id, f.req) ∈ enumFrom (k + 1) (reqs.drop (k + 1)) := by
          rw [← hq']
          exact List.mem_map_of_mem _ hf
        have := enumFrom_mem_le _ (k + 1) _ hmem
        simp at this
        omega
      have hremove : removeId dk.st.queue k = q' := by
        rw [hq]
        simp only [removeId, List.filter_cons]
        rw [if_neg (by simp [heid])]
        apply List.filter_eq_self.mpr
        intro f hf
        simpa [bne_iff_ne] using hq'ids f hf
      have honc_proj : (on_completion dk.st k).queue.map (fun f => (f.id, f.req)) =
          enumFrom (k + 1) (reqs.drop (k + 1)) := by
        simp only [on_completion, hremove]
        rw [promoteAux_map_pair]
        exact hq'
      have honc_head : headDisp (on_completion dk.st k).queue := by
        simp only [on_completion, hremove]
        exact headDisp_promote q'
      have htake : (reqs.take (k + 1)).reverse = rk :: (reqs.take k).reverse := by
        rw [List.take_succ, hrk]
        simp [List.reverse_append]
      have hrkmem : rk ∈ reqs := by
        rw [hrkdef]
        exact List.getElem_mem hk
      by_cases hread : rk.is_read = true
      · have hstep : stepDriver dk (DOp.dpermit k) =
            { st := on_completion dk.st k,
              store := resizeFor dk.store (rk.offset.toNat + rk.count),
              readResults := dk.readResults ++
                [(k, readBytes (resizeFor dk.store (rk.offset.toNat + rk.count))
                  rk.offset.toNat rk.count)] } := by
          simp only [stepDriver, hfind, hedisp, hereq, hread, if_true]
        rw [hstep]
        refine ⟨honc_proj, honc_head, ?_, ?_⟩
        · intro p
          show (((resizeFor dk.store (rk.offset.toNat + rk.count))[p]?).getD 0) = _
          rw [resizeFor_getElem, h3 p, htake, lwb_cons]
          have hcov : covers rk p = false := by
            simp [covers, hread]
          rw [hcov]
          simp
        · show dk.readResults ++
              [(k, readBytes (resizeFor dk.store (rk.offset.toNat + rk.count))
                rk.offset.toNat rk.count)] = buildRes reqs (k + 1)
          rw [h4]
          have hlen : rk.offset.toNat + rk.count ≤
              (resizeFor dk.store (rk.offset.toNat + rk.count)).length :=
            (resizeFor_length _ _).1
          rw [readBytes_eq _ _ _ hlen]
          have hbytes : (List.range rk.count).map (fun j =>
              (((resizeFor dk.store (rk.offset.toNat + rk.count))[rk.offset.toNat + j]?).getD 0)) =
              expectedBytes (reqs.take k) rk := by
            simp only [expectedBytes]
            apply List.map_congr_left
            intro j _
            rw [resizeFor_getElem, h3 _]
          rw [hbytes]
          simp [buildRes, hrk, hread]
      · have hread' : rk.is_read = false := Bool.eq_false_iff.mpr hread
        have hwlen : rk.data.length = rk.count := hw rk hrkmem hread'
        have hstep : stepDriver dk (DOp.dpermit k) =
            { st := on_completion dk.st k,
              store := writeBytes (resizeFor dk.store (rk.offset.toNat + rk.count))
                rk.offset.toNat rk.data,
              readResults := dk.readResults } := by
          simp only [stepDriver, hfind, hedisp, hereq, hread', if_true,
            Bool.false_eq_true, if_false]
        rw [hstep]
        refine ⟨honc_proj, honc_head, ?_, ?_⟩
        · intro p
          show (((writeBytes (resizeFor dk.store (rk.offset.toNat + rk.count))
              rk.offset.toNat rk.data)[p]?).getD 0) = _
          have hlen : rk.offset.toNat + rk.data.length ≤
              (resizeFor dk.store (rk.offset.toNat + rk.count)).length := by
            rw [hwlen]
            exact (resizeFor_length _ _).1
          rw [writeBytes_getElem _ _ _ _ hlen, htake, lwb_cons]
          have hcov : covers rk p =
              (decide (rk.offset.toNat ≤ p) && decide (p < rk.offset.toNat + rk.count)) := by
            simp [covers, hread']
          by_cases hc : rk.offset.toNat ≤ p ∧ p < rk.offset.toNat + rk.data.length
          · rw [if_pos hc]
            have hcv : covers rk p = true := by
              rw [hcov]
              have hB : p < rk.offset.toNat + rk.count := by omega
              simp [hc.1, hB]
            rw [hcv]
            simp
          · rw [if_neg hc]
            have hnc : ¬(rk.offset.toNat ≤ p ∧ p < rk.offset.toNat + rk.count) := by
              intro hcc
              apply hc
              exact ⟨hcc.1, by omega⟩
            have hcv : covers rk p = false := by
              rw [hcov]
              by_cases hA : rk.offset.toNat ≤ p
              · by_cases hB : p < rk.offset.toNat + rk.count
                · exact absurd ⟨hA, hB⟩ hnc
                · simp [hB]
              · simp [hA]
            rw [hcv]
            simp only [Bool.false_eq_true, if_false]
            rw [resizeFor_getElem, h3 p]
        · show dk.readResults = buildRes reqs (k + 1)
          rw [h4]
          simp [buildRes, hrk, hread']

theorem buildRes_keys (reqs : List Request) :
    ∀ k, ∀ p ∈ buildRes reqs k, p.1 < k := by
  intro k
  induction k with
  | zero => intro p h; simp [buildRes] at h
  | succ k ih =>
      intro p h
      simp only [buildRes] at h
      rcases List.mem_append.mp h with h | h
      · have := ih p h
        omega
      · cases hr : reqs[k]? with
        | none =>
            rw [hr] at h
            simp at h
        | some r =>
            rw [hr] at h
            by_cases hir : r.is_read = true
            · simp only [hir, if_true, List.mem_singleton] at h
              rw [h]
              omega
            · have hir' : r.is_read = false := Bool.eq_false_iff.mpr hir
              simp [hir'] at h

theorem buildRes_split (reqs : List Request) :
    ∀ m k, k ≤ m → ∃ suff, buildRes reqs m = buildRes reqs k ++ suff := by
  intro m
  induction m with
  | zero =>
      intro k hk
      have hk0 : k = 0 := Nat.le_zero.mp hk
      exact ⟨[], by rw [hk0]; simp⟩
  | succ m ih =>
      intro k hk
      by_cases hkm : k = m + 1
      · exact ⟨[], by rw [hkm]; simp⟩
      · have hk' : k ≤ m := by omega
        obtain ⟨suff, hs⟩ := ih k hk'
        refine ⟨suff ++ (match reqs[m]? with
          | some r => if r.is_read then [(m, expectedBytes (reqs.take m) r)] else []
          | none => []), ?_⟩
        simp only [buildRes]
        rw [hs, List.append_assoc]

theorem lookupRes_append_left (l₁ l₂ : List (Nat × List Nat)) (j : Nat) (v : List Nat) :
    lookupRes l₁ j = some v → lookupRes (l₁ ++ l₂) j = some v := by
  induction l₁ with
  | nil => intro h; simp [lookupRes] at h
  | cons p rest ih =>
      intro h
      obtain ⟨i, w⟩ := p
      simp only [lookupRes, List.cons_append] at h ⊢
      by_cases hij : i = j
      · rw [if_pos hij] at h ⊢
        exact h
      · rw [if_neg hij] at h ⊢
        exact ih h

theorem lookupRes_append_right (l₁ l₂ : List (Nat × List Nat)) (j : Nat) :
    (∀ p ∈ l₁, p.1 ≠ j) → lookupRes (l₁ ++ l₂) j = lookupRes l₂ j := by
  induction l₁ with
  | nil => intro _; rfl
  | cons p rest ih =>
      intro h
      obtain ⟨i, w⟩ := p
      have hij : i ≠ j := h (i, w) (List.mem_cons_self _ _)
      simp only [List.cons_append, lookupRes]
      rw [if_neg hij]
      exact ih (fun q hq => h q (List.mem_cons_of_mem _ hq))

theorem lookup_buildRes (reqs : List Request) (n j : Nat) (rj : Request)
    (hjn : j < n) (hj : reqs[j]? = some rj) (hread : rj.is_read = true) :
    lookupRes (buildRes reqs n) j = some (expectedBytes (reqs.take j) rj) := by
  obtain ⟨suff, hs⟩ := buildRes_split reqs n (j + 1) (by omega)
  rw [hs]
  have hstep : buildRes reqs (j + 1) =
      buildRes reqs j ++ [(j, expectedBytes (reqs.take j) rj)] := by
    simp [buildRes, hj, hread]
  apply lookupRes_append_left
  rw [hstep]
  rw [lookupRes_append_right _ _ _ (fun p hp => Nat.ne_of_lt (buildRes_keys reqs j p hp))]
  simp [lookupRes]

/-! ### Claim theorems -/

/-- C1: at every instant between operations — that is, in every reachable
system state — any two requests with distinct identities that are both in
the dispatched part of the ledger have a false conflict predicate; the
invariant holds after every sequence of submit and on_completion calls. -/
theorem c1_dispatched_never_conflict (ops : List Op) (e1 e2 : Entry)
    (h1 : e1 ∈ (runSys ops).st.queue) (h2 : e2 ∈ (runSys ops).st.queue)
    (hd1 : e1.dispatched = true) (hd2 : e2.dispatched = true)
    (hne : e1.id ≠ e2.id) : conflict e1.req e2.req = false := by
  have hI := inv_run ops
  have hne' : e1 ≠ e2 := fun h => hne (congrArg Entry.id h)
  rcases pairwise_cases safeR _ hI.safe e1 h1 e2 h2 hne' with h | h
  · exact h hd2
  · rw [conflict_comm]
    exact h hd1

theorem c1_witness :
    ((⟨0, ⟨false, 0, 3, [1, 2, 3]⟩, true⟩ : Entry) ∈
      (runSys [Op.submit ⟨false, 0, 3, [1, 2, 3]⟩,
        Op.submit ⟨false, 4096, 3, [4, 5, 6]⟩]).st.queue) ∧
    ((⟨1, ⟨false, 4096, 3, [4, 5, 6]⟩, true⟩ : Entry) ∈
      (runSys [Op.submit ⟨false, 0, 3, [1, 2, 3]⟩,
        Op.submit ⟨false, 4096, 3, [4, 5, 6]⟩]).st.queue) ∧
    conflict ⟨false, 0, 3, [1, 2, 3]⟩ ⟨false, 4096, 3, [4, 5, 6]⟩ = false :=
  ⟨by decide, by decide,
    c1_dispatched_never_conflict
      [Op.submit ⟨false, 0, 3, [1, 2, 3]⟩, Op.submit ⟨false, 4096, 3, [4, 5, 6]⟩]
      ⟨0, ⟨false, 0, 3, [1, 2, 3]⟩, true⟩ ⟨1, ⟨false, 4096, 3, [4, 5, 6]⟩, true⟩
      (by decide) (by decide) (by decide) (by decide) (by decide)⟩

/-- C2: the conflict predicate equals
`!(A.is_read && B.is_read) && A.offset < B.offset + B.count && B.offset < A.offset + A.count`
over the half-open byte ranges; it is false exactly when both requests are
reads or the ranges are disjoint (the disjointness the test's executor stub
asserts at lines 93–97); in particular two reads never conflict. -/
theorem c2_conflict_predicate_definition (a b : Request) :
    (conflict a b = (!(a.is_read && b.is_read) &&
      (decide (a.offset < b.offset + (b.count : Int)) &&
        decide (b.offset < a.offset + (a.count : Int)))))
    ∧ (a.is_read = true → b.is_read = true → conflict a b = false)
    ∧ (conflict a b = false ↔ ((a.is_read && b.is_read) = true ∨
        b.offset + (b.count : Int) ≤ a.offset ∨
        a.offset + (a.count : Int) ≤ b.offset)) := by
  refine ⟨rfl, ?_, ?_⟩
  · intro h1 h2
    simp [conflict, h1, h2]
  · by_cases hr : (a.is_read && b.is_read) = true
    · simp [conflict, hr]
    · have hr' : (a.is_read && b.is_read) = false := Bool.eq_false_iff.mpr hr
      by_cases h1 : a.offset < b.offset + (b.count : Int) <;>
        by_cases h2 : b.offset < a.offset + (a.count : Int) <;>
          simp [conflict, ranges_overlap, hr', h1, h2] <;> omega

theorem c2_witness :
    conflict ⟨true, 0, 4, []⟩ ⟨true, 2, 4, []⟩ = false :=
  (c2_conflict_predicate_definition ⟨true, 0, 4, []⟩ ⟨true, 2, 4, []⟩).2.1 rfl rfl

/-- C3 counterexample: submitting two conflicting writes and completing the
first runs the engine's on_completion, which removes the first write,
promotes and forwards the second, and only then reports the first's
completion (spec §4.2, §5c); in the resulting trace the second write's
forwarding precedes the first's completion report, so the claim "A's
completion is reported before B is ever forwarded" is false on this
input. -/
theorem c3_counterexample :
    ((runSys [Op.submit ⟨false, 0, 3, [1, 2, 3]⟩, Op.submit ⟨false, 0, 3, [4, 5, 6]⟩,
        Op.complete 0]).subs[0]? = some ⟨false, 0, 3, [1, 2, 3]⟩) ∧
    ((runSys [Op.submit ⟨false, 0, 3, [1, 2, 3]⟩, Op.submit ⟨false, 0, 3, [4, 5, 6]⟩,
        Op.complete 0]).subs[1]? = some ⟨false, 0, 3, [4, 5, 6]⟩) ∧
    conflict ⟨false, 0, 3, [1, 2, 3]⟩ ⟨false, 0, 3, [4, 5, 6]⟩ = true ∧
    (0 : Nat) < 1 ∧
    reportPrecedesForward 0 1
      (runSys [Op.submit ⟨false, 0, 3, [1, 2, 3]⟩, Op.submit ⟨false, 0, 3, [4, 5, 6]⟩,
        Op.complete 0]).trace = false := by
  refine ⟨by decide, by decide, by decide, by decide, by decide⟩

/-- C3 amended: if `conflict(A,B)` is true and A was submitted before B,
then B is never forwarded to the executor before A's completion is
delivered to the engine (A's removal from the ledger); when B's promotion
is triggered by A's own on_completion call, B's forwarding happens inside
that call, after A's removal but possibly before A's done callback. -/
theorem c3_forward_after_conflicting_completion (ops : List Op)
    (a b : Nat) (ra rb : Request)
    (hga : (runSys ops).subs[a]? = some ra)
    (hgb : (runSys ops).subs[b]? = some rb)
    (hab : a < b) (hconf : conflict ra rb = true) :
    completionPrecedesForward a b (runSys ops).trace = true := by
  have h := (inv_run ops).order_ok a b ra rb hga hgb hab hconf
  unfold completionPrecedesForward
  cases hc : cpfState a b (runSys ops).trace with
  | none => rfl
  | some v =>
      cases v with
      | true => rfl
      | false => exact absurd hc h

theorem c3_witness :
    ((runSys [Op.submit ⟨false, 0, 3, [1, 2, 3]⟩, Op.submit ⟨false, 0, 3, [4, 5, 6]⟩,
        Op.complete 0, Op.complete 1]).subs[0]? = some ⟨false, 0, 3, [1, 2, 3]⟩) ∧
    (0 : Nat) < 1 ∧
    completionPrecedesForward 0 1
      (runSys [Op.submit ⟨false, 0, 3, [1, 2, 3]⟩, Op.submit ⟨false, 0, 3, [4, 5, 6]⟩,
        Op.complete 0, Op.complete 1]).trace = true :=
  ⟨by decide, by decide,
    c3_forward_after_conflicting_completion
      [Op.submit ⟨false, 0, 3, [1, 2, 3]⟩, Op.submit ⟨false, 0, 3, [4, 5, 6]⟩,
        Op.complete 0, Op.complete 1]
      0 1 ⟨false, 0, 3, [1, 2, 3]⟩ ⟨false, 0, 3, [4, 5, 6]⟩
      (by decide) (by decide) (by decide) (by decide)⟩

/-- C4: every submit appends the request to the ledger and forwards it
immediately and synchronously, within the submit call, iff it conflicts
with no currently outstanding (dispatched or held) request submitted
earlier; otherwise it stays held; and over any run each identity is
forwarded at most once — exactly one forwarding per dispatch. -/
theorem c4_submit_dispatch_rule :
    (∀ (s : Sys) (r : Request),
      ((stepSys s (Op.submit r)).st.queue =
        s.st.queue ++ [⟨s.st.nextId, r, !conflictsWithAny s.st.queue r⟩]) ∧
      ((stepSys s (Op.submit r)).trace =
        s.trace ++ [Ev.submitted s.st.nextId] ++
          (if (!conflictsWithAny s.st.queue r) = true
            then [Ev.forwarded s.st.nextId] else [])) ∧
      ((!conflictsWithAny s.st.queue r) = true ↔
        ∀ e ∈ s.st.queue, conflict e.req r = false)) ∧
    (∀ (ops : List Op) (j : Nat), ((runSys ops).trace.count (Ev.forwarded j)) ≤ 1) := by
  constructor
  · intro s r
    refine ⟨rfl, ?_, ?_⟩
    · rfl
    · rw [Bool.not_eq_eq_eq_not]
      simp only [Bool.not_true]
      exact conflictsWithAny_eq_false_iff s.st.queue r
  · intro ops j
    exact (inv_run ops).fwd_count j

theorem c4_witness :
    ((runSys [Op.submit ⟨false, 0, 3, [7, 8, 9]⟩]).trace.count (Ev.forwarded 0)) ≤ 1 :=
  c4_submit_dispatch_rule.2 [Op.submit ⟨false, 0, 3, [7, 8, 9]⟩] 0

/-- C7: two reads over the same byte range submitted while no write
overlapping that range is outstanding are both dispatched immediately,
neither waiting on the other; and, submitted by themselves, two requests
whose ranges do not overlap are both dispatched immediately in either
submission order. -/
theorem c7_read_parallelism_and_independence :
    (∀ (s : EngineState) (o : Int) (c : Nat) (d1 d2 : List Nat),
      (∀ e ∈ s.queue, e.req.is_read = false →
        ranges_overlap e.req ⟨true, o, c, []⟩ = false) →
      ((submit s ⟨true, o, c, d1⟩).2 = true ∧
        (submit (submit s ⟨true, o, c, d1⟩).1 ⟨true, o, c, d2⟩).2 = true)) ∧
    (∀ r1 r2 : Request, ranges_overlap r1 r2 = false →
      (((submit EngineState.init r1).2 = true ∧
        (submit (submit EngineState.init r1).1 r2).2 = true) ∧
      ((submit EngineState.init r2).2 = true ∧
        (submit (submit EngineState.init r2).1 r1).2 = true))) := by
  constructor
  · intro s o c d1 d2 hw
    have hnoc : ∀ (d : List Nat), ∀ e ∈ s.queue,
        conflict e.req ⟨true, o, c, d⟩ = false := by
      intro d e he
      by_cases hr : e.req.is_read = true
      · simp [conflict, hr]
      · have hr' : e.req.is_read = false := Bool.eq_false_iff.mpr hr
        have hov := hw e he hr'
        have hov' : ranges_overlap e.req ⟨true, o, c, d⟩ = false := by
          rw [ranges_overlap_congr e.req (⟨true, o, c, d⟩ : Request)
            e.req (⟨true, o, c, []⟩ : Request) rfl rfl rfl rfl]
          exact hov
        simp [conflict, hov']
    have h1 : (submit s ⟨true, o, c, d1⟩).2 = true := by
      simp only [submit]
      rw [Bool.not_eq_eq_eq_not, Bool.not_true]
      exact (conflictsWithAny_eq_false_iff _ _).mpr (hnoc d1)
    refine ⟨h1, ?_⟩
    simp only [submit]
    rw [Bool.not_eq_eq_eq_not, Bool.not_true]
    apply (conflictsWithAny_eq_false_iff _ _).mpr
    intro e he
    rcases List.mem_append.mp he with h | h
    · exact hnoc d2 e h
    · rcases List.mem_singleton.mp h with rfl
      simp [conflict]
  · intro r1 r2 hov
    have hov' : ranges_overlap r2 r1 = false := by
      rw [ranges_overlap_comm]
      exact hov
    refine ⟨⟨rfl, ?_⟩, rfl, ?_⟩
    · simp [submit, EngineState.init, conflictsWithAny, conflict, hov]
    · simp [submit, EngineState.init, conflictsWithAny, conflict, hov']

theorem c7_witness :
    ((submit EngineState.init ⟨true, 0, 4, [1]⟩).2 = true ∧
      (submit (submit EngineState.init ⟨true, 0, 4, [1]⟩).1 ⟨true, 0, 4, [2]⟩).2 = true) ∧
    ((submit EngineState.init ⟨false, 0, 3, [1]⟩).2 = true ∧
      (submit (submit EngineState.init ⟨false, 0, 3, [1]⟩).1 ⟨false, 4096, 3, [2]⟩).2 = true) :=
  ⟨c7_read_parallelism_and_independence.1 EngineState.init 0 4 [1] [2] (by simp [EngineState.init]),
    (c7_read_parallelism_and_independence.2 ⟨false, 0, 3, [1]⟩ ⟨false, 4096, 3, [2]⟩ (by decide)).1⟩

/-- C8 counterexample: a request with `count == 0` whose offset lies
strictly inside another request's range does conflict with it, in both
argument orders, under the engine's range formula (which matches the
disjointness assertion of the test's executor stub), and it is held, not
dispatched, when submitted while such a request is outstanding — the claim
that an empty range conflicts with nothing is false at this input. -/
theorem c8_counterexample :
    (⟨false, 5, 0, []⟩ : Request).count = 0 ∧
    conflict ⟨false, 5, 0, []⟩ ⟨false, 0, 10, []⟩ = true ∧
    conflict ⟨false, 0, 10, []⟩ ⟨false, 5, 0, []⟩ = true ∧
    Ev.forwarded 1 ∉
      (runSys [Op.submit ⟨false, 0, 10, []⟩, Op.submit ⟨false, 5, 0, []⟩]).trace := by
  refine ⟨rfl, by decide, by decide, by decide⟩

/-- C8 amended: a request `E` with `count == 0` conflicts with a request
`B` — in both argument orders, the predicate being symmetric here — iff
not both are reads and `E.offset` lies strictly inside `B`'s open range,
`B.offset < E.offset < B.offset + B.count`; in particular it never
conflicts when its offset is outside or at the boundary of `B`'s range,
and a submit of `E` dispatches it immediately iff no outstanding request
strictly contains `E.offset` in that sense. -/
theorem c8_empty_range_conflict_rule (E B : Request) (s : EngineState)
    (hE : E.count = 0) :
    (conflict E B = (!(E.is_read && B.is_read) &&
      (decide (B.offset < E.offset) &&
        decide (E.offset < B.offset + (B.count : Int))))) ∧
    conflict B E = conflict E B ∧
    ((submit s E).2 = true ↔ ∀ e ∈ s.queue,
      (!(e.req.is_read && E.is_read) &&
        (decide (e.req.offset < E.offset) &&
          decide (E.offset < e.req.offset + (e.req.count : Int)))) = false) := by
  have hEB : ∀ C : Request, conflict E C = (!(E.is_read && C.is_read) &&
      (decide (C.offset < E.offset) &&
        decide (E.offset < C.offset + (C.count : Int)))) := by
    intro C
    simp only [conflict, ranges_overlap, hE]
    by_cases h1 : C.offset < E.offset <;>
      by_cases h2 : E.offset < C.offset + (C.count : Int) <;>
        by_cases h3 : C.offset < E.offset + (0 : Nat) <;>
          simp [h1, h2, h3] at *
  have hBE : ∀ C : Request, conflict C E = conflict E C := fun C => conflict_comm C E
  refine ⟨hEB B, hBE B, ?_⟩
  simp only [submit]
  rw [Bool.not_eq_eq_eq_not, Bool.not_true]
  rw [conflictsWithAny_eq_false_iff]
  constructor
  · intro h e he
    have h1 := h e he
    rw [hBE e.req, hEB e.req] at h1
    rw [Bool.and_comm (e.req.is_read) (E.is_read)]
    exact h1
  · intro h e he
    rw [hBE e.req, hEB e.req]
    have h1 := h e he
    rw [Bool.and_comm (E.is_read) (e.req.is_read)]
    exact h1

theorem c8_witness :
    (⟨false, 5, 0, []⟩ : Request).count = 0 ∧
    conflict ⟨false, 0, 10, []⟩ ⟨false, 5, 0, []⟩ =
      conflict ⟨false, 5, 0, []⟩ ⟨false, 0, 10, []⟩ :=
  ⟨rfl, (c8_empty_range_conflict_rule ⟨false, 5, 0, []⟩ ⟨false, 0, 10, []⟩
    EngineState.init rfl).2.1⟩

/-- C5: on_completion for a currently dispatched identity removes exactly
that request from the ledger and re-evaluates every held request in
submission order: the remaining sequence keeps its order, the entry at each
position becomes dispatched iff it already was or it no longer conflicts
with any still-outstanding request submitted earlier than it, and it is
forwarded during the call iff it was held and no longer conflicts with its
still-outstanding predecessors. -/
theorem c5_on_completion_rule (ops : List Op) (i : Nat)
    (h : isDispatched (runSys ops).st.queue i = true) :
    (∀ e ∈ (on_completion (runSys ops).st i).queue, e.id ≠ i) ∧
    (∀ l₁ (e : Entry) l₂, removeId (runSys ops).st.queue i = l₁ ++ e :: l₂ →
      (on_completion (runSys ops).st i).queue =
        promoteAux [] l₁ ++
          ({ e with dispatched := e.dispatched || !conflictsWithAny l₁ e.req } ::
            promoteAux (l₁ ++ [e]) l₂)) ∧
    (∀ l₁ (e : Entry) l₂, removeId (runSys ops).st.queue i = l₁ ++ e :: l₂ →
      (e.id ∈ promotedIdsAux [] (removeId (runSys ops).st.queue i) ↔
        (e.dispatched = false ∧ conflictsWithAny l₁ e.req = false))) ∧
    (stepSys (runSys ops) (Op.complete i)).trace =
      (runSys ops).trace ++ [Ev.completed i] ++
        (promotedIdsAux [] (removeId (runSys ops).st.queue i)).map Ev.forwarded ++
        [Ev.reported i] := by
  refine ⟨?_, ?_, ?_, ?_⟩
  · intro e he
    simp only [on_completion] at he
    obtain ⟨f, hf, h1, _, _⟩ := promoteAux_mem _ _ _ he
    rw [h1]
    exact ((mem_removeId _ _ _).mp hf).2
  · intro l₁ e l₂ hsplit
    show promoteAux [] (removeId (runSys ops).st.queue i) = _
    rw [hsplit, promoteAux_append]
    simp only [List.nil_append]
    rfl
  · intro l₁ e l₂ hsplit
    have hnd : ((removeId (runSys ops).st.queue i).map (fun e => e.id)).Nodup :=
      ((inv_run ops).ids_sorted.sublist
        ((removeId_sublist (runSys ops).st.queue i).map _)).imp
        (fun hx => Nat.ne_of_lt hx)
    exact promoted_iff_at_split _ hnd l₁ e l₂ hsplit
  · simp [stepSys, h]

theorem c5_witness :
    isDispatched
      (runSys [Op.submit ⟨false, 0, 3, [1]⟩, Op.submit ⟨false, 0, 3, [2]⟩]).st.queue
      0 = true ∧
    (⟨1, ⟨false, 0, 3, [2]⟩, true⟩ : Entry).id ≠ 0 :=
  ⟨by decide,
    (c5_on_completion_rule [Op.submit ⟨false, 0, 3, [1]⟩, Op.submit ⟨false, 0, 3, [2]⟩]
      0 (by decide)).1 ⟨1, ⟨false, 0, 3, [2]⟩, true⟩ (by decide)⟩

/-- C9: over any run each identity's completion is reported to the caller
at most once; and an on_completion call for a dispatched identity appends
to the trace, in order, the executor's completion delivery, the
forwardings of the newly promoted held requests (the fully updated
ledger's promotions), and only then — last — the completion report toward
the caller, whose total count then equals exactly one. -/
theorem c9_report_once_after_update :
    (∀ (ops : List Op) (j : Nat), ((runSys ops).trace.count (Ev.reported j)) ≤ 1) ∧
    (∀ (ops : List Op) (i : Nat), isDispatched (runSys ops).st.queue i = true →
      ((runSys (ops ++ [Op.complete i])).trace =
        (runSys ops).trace ++ [Ev.completed i] ++
          (promotedIdsAux [] (removeId (runSys ops).st.queue i)).map Ev.forwarded ++
          [Ev.reported i]) ∧
      ((runSys (ops ++ [Op.complete i])).trace.count (Ev.reported i)) = 1) := by
  constructor
  · intro ops j
    exact (inv_run ops).rep_count j
  · intro ops i h
    have htr : (runSys (ops ++ [Op.complete i])).trace =
        (runSys ops).trace ++ [Ev.completed i] ++
          (promotedIdsAux [] (removeId (runSys ops).st.queue i)).map Ev.forwarded ++
          [Ev.reported i] := by
      rw [runSys_append_one]
      simp [stepSys, h]
    refine ⟨htr, ?_⟩
    rw [htr, List.count_append, List.count_append, List.count_append]
    have h0 : (runSys ops).trace.count (Ev.reported i) = 0 := by
      apply List.count_eq_zero.mpr
      obtain ⟨e, he, heid, _⟩ := (isDispatched_exists _ _).mp h
      exact ((inv_run ops).out_rep i
        (heid ▸ (inv_run ops).ids_lt e he)).mp ⟨e, he, heid⟩
    have h1 : ([Ev.completed i].count (Ev.reported i)) = 0 :=
      count_singleton_ne _ _ (by simp)
    have h2 : (((promotedIdsAux [] (removeId (runSys ops).st.queue i)).map
        Ev.forwarded).count (Ev.reported i)) = 0 := by
      apply List.count_eq_zero.mpr
      intro hx
      obtain ⟨x, _, hxe⟩ := List.mem_map.mp hx
      exact absurd hxe (by simp)
    have h3 : ([Ev.reported i].count (Ev.reported i)) = 1 := by simp
    omega

theorem c9_witness :
    isDispatched (runSys [Op.submit ⟨false, 0, 3, [1]⟩]).st.queue 0 = true ∧
    ((runSys ([Op.submit ⟨false, 0, 3, [1]⟩] ++ [Op.complete 0])).trace.count
      (Ev.reported 0)) = 1 :=
  ⟨by decide,
    (c9_report_once_after_update.2 [Op.submit ⟨false, 0, 3, [1]⟩] 0 (by decide)).2⟩

/-- C10: completion processing is fully synchronous — once the
on_completion call for a dispatched identity has run, that identity has
already been reported done to the caller, and every request the ledger now
records as dispatched (in particular every held request promoted by this
completion) has already been forwarded to the executor. -/
theorem c10_completion_synchronous (ops : List Op) (i : Nat)
    (h : isDispatched (runSys ops).st.queue i = true) :
    Ev.reported i ∈ (runSys (ops ++ [Op.complete i])).trace ∧
    ∀ e ∈ (runSys (ops ++ [Op.complete i])).st.queue, e.dispatched = true →
      Ev.forwarded e.id ∈ (runSys (ops ++ [Op.complete i])).trace := by
  constructor
  · have htr : (runSys (ops ++ [Op.complete i])).trace =
        (runSys ops).trace ++ [Ev.completed i] ++
          (promotedIdsAux [] (removeId (runSys ops).st.queue i)).map Ev.forwarded ++
          [Ev.reported i] := by
      rw [runSys_append_one]
      simp [stepSys, h]
    rw [htr]
    simp
  · intro e he hd
    exact ((inv_run (ops ++ [Op.complete i])).disp_fwd e he).mp hd

theorem c10_witness :
    isDispatched (runSys [Op.submit ⟨false, 0, 3, [1]⟩, Op.submit ⟨false, 0, 3, [2]⟩]).st.queue
      0 = true ∧
    Ev.reported 0 ∈ (runSys ([Op.submit ⟨false, 0, 3, [1]⟩, Op.submit ⟨false, 0, 3, [2]⟩] ++
      [Op.complete 0])).trace :=
  ⟨by decide,
    (c10_completion_synchronous [Op.submit ⟨false, 0, 3, [1]⟩, Op.submit ⟨false, 0, 3, [2]⟩]
      0 (by decide)).1⟩

/-- C6: for every sequence of writes and reads run against the simulated
backing store, with submissions in order and completions resolved in
submission order (one total order consistent with everything the engine
guarantees, and the one the visible test scenarios use — including the
subrange and superrange cases), every read returns, for each byte of its
range, exactly the byte written by the most recent prior write covering
that position (zero where no prior write covers it, the store being
zero-initialized on growth).  Writes carry buffers of their declared
count, and negative offsets are excluded per the spec's contract. -/
theorem c6_sequential_read_correctness (reqs : List Request)
    (hw : ∀ r ∈ reqs, r.is_read = false → r.data.length = r.count)
    (_hoff : ∀ r ∈ reqs, 0 ≤ r.offset)
    (j : Nat) (rj : Request) (hj : reqs[j]? = some rj) (hread : rj.is_read = true) :
    lookupRes (seqRun reqs).readResults j = some (expectedBytes (reqs.take j) rj) := by
  have hjlen : j < reqs.length := (List.getElem?_eq_some.mp hj).1
  have hseq : seqRun reqs = List.foldl stepDriver
      (List.foldl stepDriver Driver.start (reqs.map DOp.dsubmit))
      ((List.range reqs.length).map DOp.dpermit) := by
    simp [seqRun, runDriver, seqOps, List.foldl_append]
  obtain ⟨hp1, hp2, hp3⟩ := foldl_dsubmit reqs Driver.start
  have hproj : (List.foldl stepDriver Driver.start (reqs.map DOp.dsubmit)).st.queue.map
      (fun e => (e.id, e.req)) = enumFrom 0 reqs := by
    rw [hp1]
    rfl
  have hhead : headDisp (List.foldl stepDriver Driver.start (reqs.map DOp.dsubmit)).st.queue := by
    apply foldl_dsubmit_head
    intro e h
    simp [Driver.start, EngineState.init] at h
  have hstore0 : (List.foldl stepDriver Driver.start (reqs.map DOp.dsubmit)).store = [] := hp2
  have hres0 : (List.foldl stepDriver Driver.start (reqs.map DOp.dsubmit)).readResults = [] := hp3
  obtain ⟨_, _, _, q4⟩ := seq_phase2 reqs hw reqs.length (le_refl _) _ hproj hhead hstore0 hres0
  rw [hseq, q4]
  exact lookup_buildRes reqs reqs.length j rj hjlen hj hread

theorem c6_witness :
    (∀ r ∈ ([⟨false, 0, 3, [102, 111, 111]⟩, ⟨false, 0, 3, [98, 97, 114]⟩,
        ⟨true, 0, 3, []⟩] : List Request), r.is_read = false → r.data.length = r.count) ∧
    (∀ r ∈ ([⟨false, 0, 3, [102, 111, 111]⟩, ⟨false, 0, 3, [98, 97, 114]⟩,
        ⟨true, 0, 3, []⟩] : List Request), (0 : Int) ≤ r.offset) ∧
    lookupRes (seqRun [⟨false, 0, 3, [102, 111, 111]⟩, ⟨false, 0, 3, [98, 97, 114]⟩,
        ⟨true, 0, 3, []⟩]).readResults 2 =
      some (expectedBytes ([(⟨false, 0, 3, [102, 111, 111]⟩ : Request),
        ⟨false, 0, 3, [98, 97, 114]⟩, ⟨true, 0, 3, []⟩].take 2) ⟨true, 0, 3, []⟩) :=
  ⟨by decide, by decide,
    c6_sequential_read_correctness
      [⟨false, 0, 3, [102, 111, 111]⟩, ⟨false, 0, 3, [98, 97, 114]⟩, ⟨true, 0, 3, []⟩]
      (by decide) (by decide) 2 ⟨true, 0, 3, []⟩ (by decide) rfl⟩

end DiskConflict
